import Mathlib

/-!
Shallow embedding of the uni-api gateway (src/main.py) and verification of
its specification claims.

Conventions of the embedding:
* Python dicts become association lists (`List (String × α)`) in insertion
  order; `defaultdict(int)` access that inserts a missing key is modelled
  explicitly (`dget`, `bump`).
* Python floats (timestamps, percentages, scheduler ratios) are modelled by
  exact rationals `ℚ`.
* A raised `HTTPException` becomes an `Outcome.httpErr`; other Python
  exceptions (KeyError, ZeroDivisionError, ValueError) become
  `Outcome.pyErr` / `Option.none`.
-/

namespace UniApi

/-- A provider record from the configuration: name, base URL, the
`model` dict mapping logical alias → upstream model id (insertion order),
and the optional explicit `engine` override. -/
structure Provider where
  provider : String
  base_url : String := ""
  model : List (String × String) := []
  engine : Option String := none
deriving DecidableEq, Repr

/-- An api-key record: the token, its `model` rule list (bare alias `M` or
scoped `P/M`), the `weights` dict (empty list models a missing/empty dict,
both falsy in Python), and the two preference flags (`none` models an
absent preference). -/
structure ApiKeyRecord where
  api : String
  model : List String := []
  weights : List (String × Int) := []
  use_round_robin_pref : Option Bool := none
  auto_retry_pref : Option Bool := none
deriving DecidableEq, Repr

/-- The loaded configuration: `providers` and `api_keys`, both in declared
order. -/
structure Config where
  providers : List Provider := []
  api_keys : List ApiKeyRecord := []
deriving DecidableEq, Repr

/-- Dict lookup (first entry with the key, as in a Python dict whose keys
are unique). -/
def alook (l : List (String × α)) (k : String) : Option α :=
  (l.find? (fun p => p.1 == k)).map (fun p => p.2)

/-- Keys of an association list (dict iteration order). -/
def keysOf (l : List (String × α)) : List String :=
  l.map Prod.fst

/-- `defaultdict(int)` read access `m[k]`: returns the stored value, or
inserts the key with value `0` and returns `0`.  The second component is
the possibly-extended dict. -/
def dget : List (String × Nat) → String → Nat × List (String × Nat)
  | [], k => (0, [(k, 0)])
  | p :: rest, k =>
    if p.1 == k then (p.2, p :: rest)
    else
      let r := dget rest k
      (r.1, p :: r.2)

/-- The value a `defaultdict(int)` read would return without mutating:
the stored value, or 0 for a missing key. -/
def dlook (l : List (String × Nat)) (k : String) : Nat :=
  (alook l k).getD 0

/-- `defaultdict(int)` increment `m[k] += 1`. -/
def bump : List (String × Nat) → String → List (String × Nat)
  | [], k => [(k, 1)]
  | p :: rest, k =>
    if p.1 == k then (p.1, p.2 + 1) :: rest else p :: bump rest k

/-- Sum of all counter values in a counts dict. -/
def totalCount (l : List (String × Nat)) : Nat :=
  (l.map Prod.snd).sum

/-- Dict read `m[k]` for an int-valued dict whose key is known to be
present (missing key defaults to 0; `weighted_round_robin` only reads
keys it initialized). -/
def aget (l : List (String × Int)) (k : String) : Int :=
  ((l.find? (fun p => p.1 == k)).map (fun p => p.2)).getD 0

/-- Dict write `m[k] = v` for an existing key (updates the first — in a
dict, the only — entry with that key). -/
def aset : List (String × Int) → String → Int → List (String × Int)
  | [], _, _ => []
  | p :: rest, k, v => if p.1 == k then (k, v) :: rest else p :: aset rest k v

/-! ## Weighted scheduler (`weighted_round_robin`, src/main.py:233-254) -/

/-- The inner `for name in provider_names` scan of `weighted_round_robin`:
adds `weights[name]` to `current_weights[name]`, computes the ratio
`current_weights[name] / weights[name]` (Python float division, modelled
exactly as the rational `Rat.divInt`), and tracks the greatest ratio and
the selected name (`if ratio > max_ratio`). -/
def wrrScan (weights : List (String × Int)) :
    List String → List (String × Int) → ℚ → Option String →
    List (String × Int) × ℚ × Option String
  | [], cur, maxR, sel => (cur, maxR, sel)
  | n :: rest, cur, maxR, sel =>
    let w := aget weights n
    let cur2 := aset cur n (aget cur n + w)
    let r : ℚ := Rat.divInt (aget cur2 n) w
    if maxR < r then wrrScan weights rest cur2 r (some n)
    else wrrScan weights rest cur2 maxR sel

/-- The outer `for _ in range(num_selections)` loop of
`weighted_round_robin`.  A `none` selection (all ratios ≤ -1) would make
the Python code crash with a `KeyError` on `current_weights[None]`; this
is modelled by returning `none`. -/
def wrrLoop (weights : List (String × Int)) (names : List String) (total : Int) :
    Nat → List (String × Int) → Option (List String)
  | 0, _ => some []
  | k + 1, cur =>
    let s := wrrScan weights names cur (-1) none
    match s.2.2 with
    | some m => (wrrLoop weights names total k (aset s.1 m (aget s.1 m - total))).map
        (fun l => m :: l)
    | none => none

/-- `weighted_round_robin(weights)`: builds the interleaved provider-name
list of length `sum(weights.values())`. -/
def weighted_round_robin (weights : List (String × Int)) : Option (List String) :=
  let provider_names := weights.map Prod.fst
  let cur0 := provider_names.map (fun n => (n, (0 : Int)))
  let total := (weights.map Prod.snd).sum
  wrrLoop weights provider_names total total.toNat cur0

/-! ## Engine selection (`process_request`, src/main.py:174-206) -/

/-- Substring occurrence on character lists (haystack, needle). -/
def containsSub : List Char → List Char → Bool
  | [], pat => pat.isEmpty
  | h :: t, pat => pat.isPrefixOf (h :: t) || containsSub t pat

/-- Substring test, Python `pat in s` for strings. -/
def containsStr (s pat : String) : Bool :=
  containsSub s.data pat.data

/-- Splits a haystack at the first occurrence of a needle: `(before,
after)` without the needle, or `none` when the needle does not occur. -/
def breakSub (pat : List Char) : List Char → Option (List Char × List Char)
  | [] => if pat.isEmpty then some ([], []) else none
  | a :: rest =>
    if pat.isPrefixOf (a :: rest) then some ([], (a :: rest).drop pat.length)
    else
      match breakSub pat rest with
      | some pr => some (a :: pr.1, pr.2)
      | none => none

/-- Python `s.split(sep)` for a one-character separator. -/
def splitCharAux (c : Char) : List Char → List (List Char)
  | [] => [[]]
  | a :: rest =>
    let r := splitCharAux c rest
    if a == c then [] :: r
    else
      match r with
      | [] => [[a]]
      | h :: t => (a :: h) :: t

/-- Python `s.split("/")`. -/
def splitSlash (s : String) : List String :=
  (splitCharAux '/' s.data).map String.mk

/-- Python `s.endswith(suffix)`. -/
def endsWithStr (s suffix : String) : Bool :=
  suffix.data.isSuffixOf s.data

/-- `urllib.parse.urlparse` restricted to what the source consumes
(`netloc` and `path`) on URLs of the shape `scheme://netloc/path`. -/
def parseNetlocPath (url : String) : String × String :=
  match breakSub ([':', '/', '/']) url.data with
  | none => ("", url)
  | some sr =>
    match breakSub (['/']) sr.2 with
    | none => (String.mk sr.2, "")
    | some nr => (String.mk nr.1, String.mk ('/' :: nr.2))

/-- The engine-selection prefix of `process_request`: the `urlparse`-based
inference chain, the "upstream id contains none of claude/gpt/gemini"
override, the vertex refinements, the image-endpoint override and the
provider `engine` override, in source order.  `none` models the `KeyError`
on `provider.model[request.model]` when the alias is absent.  (The
`request.stream = False` side effect of the dalle branch and the actual
upstream call are outside this function.) -/
def process_request_engine (p : Provider) (requestModel : String)
    (endpoint : Option String) : Option String :=
  match alook p.model requestModel with
  | none => none
  | some mid =>
    let np := parseNetlocPath p.base_url
    let netloc := np.1
    let path := np.2
    let engine :=
      if netloc == "generativelanguage.googleapis.com" then "gemini"
      else if netloc == "aiplatform.googleapis.com" then "vertex"
      else if netloc == "api.anthropic.com" || endsWithStr path "v1/messages" then "claude"
      else if netloc == "openrouter.ai" then "openrouter"
      else "gpt"
    let engine :=
      if !(containsStr mid "claude") && !(containsStr mid "gpt")
          && !(containsStr mid "gemini") then "openrouter" else engine
    let engine :=
      if containsStr mid "claude" && engine == "vertex" then "vertex-claude" else engine
    let engine :=
      if containsStr mid "gemini" && engine == "vertex" then "vertex-gemini" else engine
    let engine :=
      if endpoint == some "/uni/v1/images/generations" then "dalle" else engine
    let engine :=
      match p.engine with
      | some e => if e != "" then e else engine
      | none => engine
    some engine

/-! ## Provider resolver (`get_matching_providers`, src/main.py:261-314) -/

/-- Stage 1 of `get_matching_providers`: expand the api key's `model`
entries into `provider_rules`.  A `P/M` entry contributes the bare rule
`P` when `M` is non-empty (Python truthiness) and `model_name` is offered
by some provider named `P` — note that `M` itself is not compared against
`model_name`; the `M == "*"` disjunct of the source is subsumed by the
first disjunct.  A bare entry `m` contributes `"P/m"` for every provider
`P` offering alias `m`. -/
def stage1Rules (providers : List Provider) (model_name : String)
    (keyModels : List String) : List String :=
  keyModels.flatMap (fun m =>
    if m.data.contains '/' then
      let provider_name := (splitSlash m).getD 0 ""
      let msplit := (splitSlash m).getD 1 ""
      let models_list :=
        (providers.filter (fun p => p.provider == provider_name)).flatMap
          (fun p => keysOf p.model)
      if (msplit != "" && models_list.contains model_name)
          || (msplit == "*" && models_list.contains model_name)
      then [provider_name] else []
    else
      (providers.filter (fun p => (keysOf p.model).contains m)).map
        (fun p => p.provider ++ "/" ++ m))

/-- Stage 2 of `get_matching_providers`: materialize `provider_list` from
the rules, scanning `providers` in declared order for each rule. -/
def stage2Providers (providers : List Provider) (model_name : String)
    (rules : List String) : List Provider :=
  rules.flatMap (fun item =>
    providers.filter (fun p =>
      if item.data.contains '/' then
        p.provider == (splitSlash item).getD 0 ""
          && (keysOf p.model).contains model_name
          && (splitSlash item).getD 1 "" == model_name
      else
        p.provider == item && (keysOf p.model).contains model_name))

/-- The 404 "No matching model found" error and its relatives. -/
inductive Outcome where
  | served (name : String)
  | httpErr (status : Nat) (detail : String)
  | pyErr
deriving DecidableEq, Repr

/-- `get_matching_providers(model_name, token)`: `.error` is the raised
404 when the api key has no (or an empty) `model` list; `none` from the
record lookup models the `ValueError` of `api_list.index` on an unknown
token. -/
def get_matching_providers (config : Config) (model_name token : String) :
    Option (Except (Nat × String) (List Provider)) :=
  match config.api_keys.find? (fun r => r.api == token) with
  | none => none
  | some r =>
    if r.model.isEmpty then some (.error (404, "No matching model found"))
    else
      some (.ok (stage2Providers config.providers model_name
        (stage1Rules config.providers model_name r.model)))

/-! ## Dispatch loop (`try_all_providers`, src/main.py:359-375) -/

/-- The mutable handler / middleware state threaded through dispatches:
the round-robin cursor `last_provider_index` and the two channel counter
dicts updated by `process_request`. -/
structure DState where
  lastProviderIndex : Int := -1
  successCounts : List (String × Nat) := []
  failureCounts : List (String × Nat) := []
deriving DecidableEq, Repr

/-- The `for i in range(num_providers + 1)` loop of `try_all_providers`,
over the remaining loop indices.  `succ` is the upstream stub: whether
`process_request` succeeds for a given provider name.  Each attempt first
sets `last_provider_index`, then increments exactly one success or failure
counter (the counter updates of `process_request`).  The returned
`List String` is the trace of attempted provider names.  The `none` branch
of the index lookup models the `ZeroDivisionError` of `% 0` on an empty
provider list (the cursor write does not happen in that case). -/
def tryAllAux (succ : String → Bool) (ps : List Provider) (start : Int)
    (autoRetry : Bool) (modelName : String) :
    List Nat → DState → DState × List String × Outcome
  | [], st => (st, [], .httpErr 500 ("All providers failed: " ++ modelName))
  | i :: rest, st =>
    let n : Int := (ps.length : Int)
    let idx := (start + (i : Int)) % n
    match ps.get? idx.toNat with
    | none => (st, [], .pyErr)
    | some p =>
      let st1 := { st with lastProviderIndex := idx }
      if succ p.provider then
        ({ st1 with successCounts := bump st1.successCounts p.provider },
         [p.provider], .served p.provider)
      else
        let st2 := { st1 with failureCounts := bump st1.failureCounts p.provider }
        if autoRetry then
          let r := tryAllAux succ ps start autoRetry modelName rest st2
          (r.1, p.provider :: r.2.1, r.2.2)
        else
          (st2, [p.provider], .httpErr 500 "Error: Current provider response failed!")

/-- `try_all_providers(request, providers, use_round_robin, auto_retry)`:
start index is `last_provider_index + 1` under round-robin, else `0`; the
loop runs over `range(len(providers) + 1)`. -/
def try_all_providers (succ : String → Bool) (modelName : String)
    (ps : List Provider) (useRoundRobin autoRetry : Bool) (st : DState) :
    DState × List String × Outcome :=
  let start : Int := if useRoundRobin then st.lastProviderIndex + 1 else 0
  tryAllAux succ ps start autoRetry modelName (List.range (ps.length + 1)) st

/-- The provider name at a candidate-list position (`""` out of range);
observable description of which provider an attempt hits. -/
def nameAt (ps : List Provider) (i : Nat) : String :=
  ((ps.get? i).map (fun p => p.provider)).getD ""

/-- `request_model(request, token)`: resolve candidates, 404 when empty,
apply the optional weighted reordering (intersecting the weights keys with
the candidate provider names, Python dict-order filter), read the two
preference flags (default true, set to false only by an explicit `False`),
and run `try_all_providers`. -/
def request_model (succ : String → Bool) (config : Config)
    (modelName token : String) (st : DState) : DState × List String × Outcome :=
  match get_matching_providers config modelName token with
  | none => (st, [], .pyErr)
  | some (.error e) => (st, [], .httpErr e.1 e.2)
  | some (.ok matching) =>
    if matching.isEmpty then (st, [], .httpErr 404 "No matching model found")
    else
      match config.api_keys.find? (fun r => r.api == token) with
      | none => (st, [], .pyErr)
      | some r =>
        let weights := r.weights
        let step :=
          if weights.isEmpty then some matching
          else
            let providerNames := matching.map (fun p => p.provider)
            let weights2 := weights.filter (fun w => providerNames.contains w.1)
            match weighted_round_robin weights2 with
            | none => none
            | some wlist =>
              some (wlist.flatMap (fun nm =>
                matching.filter (fun p => p.provider == nm)))
        match step with
        | none => (st, [], .pyErr)
        | some matching2 =>
          let useRR := !(r.use_round_robin_pref == some false)
          let autoRetry := !(r.auto_retry_pref == some false)
          try_all_providers succ modelName matching2 useRR autoRetry st

/-- `k` sequential calls of `try_all_providers` on a fixed candidate list,
collecting the provider names that served each request. -/
def runTryAll (succ : String → Bool) (modelName : String) (ps : List Provider)
    (useRoundRobin autoRetry : Bool) : Nat → DState → DState × List String
  | 0, st => (st, [])
  | k + 1, st =>
    let r := try_all_providers succ modelName ps useRoundRobin autoRetry st
    let rest := runTryAll succ modelName ps useRoundRobin autoRetry k r.1
    (rest.1, (match r.2.2 with | .served nm => [nm] | _ => []) ++ rest.2)

/-- `k` sequential requests through `request_model`, collecting the
provider names that served each request. -/
def runRequestModel (succ : String → Bool) (config : Config)
    (modelName token : String) : Nat → DState → DState × List String
  | 0, st => (st, [])
  | k + 1, st =>
    let r := request_model succ config modelName token st
    let rest := runRequestModel succ config modelName token k r.1
    (rest.1, (match r.2.2 with | .served nm => [nm] | _ => []) ++ rest.2)

/-! ## Rate limiter (`InMemoryRateLimiter.is_rate_limited`, src/main.py:406-416) -/

/-- `is_rate_limited(key, limit, period)` at time `now`, acting on the
`requests[key]` list: drop entries `req ≤ now - period`, report
rate-limited when at least `limit` remain, otherwise append `now`. -/
def is_rate_limited (reqs : List ℚ) (limit : Nat) (period : ℚ) (now : ℚ) :
    List ℚ × Bool :=
  let kept := reqs.filter (fun req => decide (now - period < req))
  if limit ≤ kept.length then (kept, true) else (kept ++ [now], false)

/-- Run the rate limiter over a sequence of call times for one key,
returning the final `requests[key]` list and the admitted times. -/
def runLimiter (limit : Nat) (period : ℚ) : List ℚ → List ℚ → List ℚ × List ℚ
  | [], st => (st, [])
  | t :: ts, st =>
    let r := is_rate_limited st limit period t
    let rest := runLimiter limit period ts r.1
    (rest.1, if r.2 then rest.2 else t :: rest.2)

/-! ## Stats middleware (`StatsMiddleware`, src/main.py:57-157) -/

/-- Descending-percentage order used by `sorted(..., key=item[1],
reverse=True)`. -/
def pctGE (a b : String × ℚ) : Prop := b.2 ≤ a.2

instance : DecidableRel pctGE :=
  fun a b => inferInstanceAs (Decidable (b.2 ≤ a.2))

instance : IsTotal (String × ℚ) pctGE :=
  ⟨fun a b => le_total b.2 a.2⟩

instance : IsTrans (String × ℚ) pctGE :=
  ⟨fun _ _ _ h1 h2 => le_trans h2 h1⟩

/-- The shared body of `calculate_success_percentages` and
`calculate_failure_percentages`: iterate one counts dict, read the `other`
counts dict through `defaultdict` access (which inserts missing keys with
value 0), and record `count / total * 100` (or 0 when the total is 0).
Returns the percentage entries in iteration order and the mutated `other`
dict. -/
def calcPercAux : List (String × Nat) → List (String × Nat) →
    List (String × ℚ) × List (String × Nat)
  | [], other => ([], other)
  | (ch, c) :: rest, other =>
    let d := dget other ch
    let total := c + d.1
    let pct : ℚ := if 0 < total then Rat.divInt (c : Int) (total : Int) * 100 else 0
    let r := calcPercAux rest d.2
    ((ch, pct) :: r.1, r.2)

/-- `calculate_success_percentages`: percentage of successes per channel in
`channel_success_counts`, sorted descending (a stable sort, as Python's
`sorted`); also returns the mutated `channel_failure_counts`. -/
def calculate_success_percentages (success failure : List (String × Nat)) :
    List (String × ℚ) × List (String × Nat) :=
  let r := calcPercAux success failure
  (List.insertionSort pctGE r.1, r.2)

/-- `calculate_failure_percentages`: percentage of failures per channel in
`channel_failure_counts`, sorted descending; also returns the mutated
`channel_success_counts`. -/
def calculate_failure_percentages (failure success : List (String × Nat)) :
    List (String × ℚ) × List (String × Nat) :=
  let r := calcPercAux failure success
  (List.insertionSort pctGE r.1, r.2)

/-- The channel part of a stats snapshot as built by `get_stats` /
`save_stats`: the counts dicts are materialized first, then
`calculate_success_percentages()` runs (mutating the failure counts), then
`calculate_failure_percentages()` runs on the mutated failure counts
(mutating the success counts). -/
structure Snapshot where
  channel_success_counts : List (String × Nat)
  channel_failure_counts : List (String × Nat)
  channel_success_percentages : List (String × ℚ)
  channel_failure_percentages : List (String × ℚ)
deriving DecidableEq, Repr

/-- Builds the snapshot and returns it together with the post-snapshot
live counter dicts `(success, failure)`. -/
def get_stats_snapshot (success failure : List (String × Nat)) :
    Snapshot × List (String × Nat) × List (String × Nat) :=
  let r1 := calculate_success_percentages success failure
  let r2 := calculate_failure_percentages r1.2 success
  (⟨success, failure, r1.1, r2.1⟩, r2.2, r1.2)

/-- The four endpoint-keyed stats maps of `StatsMiddleware`. -/
structure Stats where
  request_counts : List (String × Nat) := []
  request_times : List (String × ℚ) := []
  ip_counts : List (String × List (String × Nat)) := []
  request_arrivals : List (String × List ℚ) := []
deriving DecidableEq, Repr

/-- `cleanup_old_data` with cutoff `cutoff_time`: for each endpoint in
`request_arrivals`, keep only arrival times `> cutoff`; endpoints whose
list becomes empty are deleted from all four maps (dict keys are unique,
so the per-endpoint loop of the source is this batch form). -/
def cleanup_old_data (cutoff : ℚ) (s : Stats) : Stats :=
  let processed := s.request_arrivals.map
    (fun p => (p.1, p.2.filter (fun t => decide (cutoff < t))))
  let removed := (processed.filter (fun p => p.2.isEmpty)).map Prod.fst
  { request_arrivals := processed.filter (fun p => !p.2.isEmpty)
    request_counts := s.request_counts.filter (fun p => !(removed.contains p.1))
    request_times := s.request_times.filter (fun p => !(removed.contains p.1))
    ip_counts := s.ip_counts.filter (fun p => !(removed.contains p.1)) }

/-- The `removed` set of `cleanup_old_data`: endpoints whose arrival list
becomes empty after dropping timestamps `≤ cutoff`. -/
def removedKeys (cutoff : ℚ) (s : Stats) : List String :=
  ((s.request_arrivals.map
      (fun p => (p.1, p.2.filter (fun t => decide (cutoff < t))))).filter
    (fun p => p.2.isEmpty)).map Prod.fst

/-- The spec's stats-maps invariant: every endpoint key present in any of
the four endpoint-keyed maps has a non-empty `request_arrivals` entry. -/
def arrivalsCover (s : Stats) : Prop :=
  ∀ e ∈ keysOf s.request_counts ++ keysOf s.request_times ++
      keysOf s.ip_counts ++ keysOf s.request_arrivals,
    ((alook s.request_arrivals e).getD []).isEmpty = false

/-! ## Concrete fixtures used by the claim scenarios -/

/-- Provider `A` of scenarios S1/S2, offering alias `gpt-4`. -/
def provA : Provider :=
  { provider := "A", base_url := "https://a.example.com", model := [("gpt-4", "gpt-4")] }

/-- Provider `B` of scenarios S1/S2, offering alias `gpt-4`. -/
def provB : Provider :=
  { provider := "B", base_url := "https://b.example.com", model := [("gpt-4", "gpt-4")] }

/-- Provider `C` of scenario S1, offering alias `gpt-4`. -/
def provCc : Provider :=
  { provider := "C", base_url := "https://c.example.com", model := [("gpt-4", "gpt-4")] }

/-- The `openai` provider of scenario S5: offers aliases `gpt-4` and
`gpt-3.5`. -/
def provOpenai : Provider :=
  { provider := "openai", base_url := "https://api.openai.com",
    model := [("gpt-4", "gpt-4"), ("gpt-3.5", "gpt-3.5-turbo")] }

/-- Scenario S5 configuration: one api key whose model list is the scoped
rule `openai/gpt-4`. -/
def cfgScoped : Config :=
  { providers := [provOpenai]
    api_keys := [{ api := "k", model := ["openai/gpt-4"] }] }

/-- Scenario S2 configuration: providers `A`, `B` both offering `gpt-4`,
api key with weights `{A: 3, B: 1}`. -/
def cfgWeighted : Config :=
  { providers := [provA, provB]
    api_keys := [{ api := "k", model := ["gpt-4"], weights := [("A", 3), ("B", 1)] }] }

/-- An anthropic-hosted provider whose upstream model id contains none of
`claude`/`gpt`/`gemini`, and no engine override. -/
def provAnthMistral : Provider :=
  { provider := "anth", base_url := "https://api.anthropic.com",
    model := [("m", "mistral-large")] }

/-- An anthropic-hosted provider whose upstream model id contains
`claude`, and no engine override. -/
def provAnthClaude : Provider :=
  { provider := "anth", base_url := "https://api.anthropic.com",
    model := [("m", "claude-3-opus")] }

/-! ## Claim theorems -/

/-- C1: the claim says a scoped rule `openai/gpt-4` yields no candidate for
a request for `gpt-3.5`, so `request_model` fails with 404.  The code
disagrees: `get_matching_providers` never compares the `M` of a `P/M`
entry against the requested model (the condition
`(model and model_name in models_list) or (model == "*" and ...)` only
tests membership of `model_name` in provider `P`'s aliases), so the
request resolves to the `openai` provider and is served. -/
theorem c1_scoped_rule_ignores_model_suffix :
    get_matching_providers cfgScoped "gpt-3.5" "k" = some (.ok [provOpenai]) ∧
    (request_model (fun _ => true) cfgScoped "gpt-3.5" "k" {}).2.2 =
      Outcome.served "openai" := by
  constructor
  · rfl
  · rfl

/-- C2 counterexample: with weights `{A: 3, B: 1}` and both providers
offering `gpt-4`, 8 sequential always-succeeding requests are *not*
served in the order `A A A B A A A B` claimed by the spec (already the
second request is served by `B`). -/
theorem c2_weighted_order_counterexample :
    ¬ ((runRequestModel (fun _ => true) cfgWeighted "gpt-4" "k" 8 {}).2 =
      ["A", "A", "A", "B", "A", "A", "A", "B"]) := by
  decide

/-- C2 amended: with weights `{A: 3, B: 1}`, `weighted_round_robin`
produces the cycle `[A, B, A, A]` (the ratio-based selection picks `B`
second), so 8 sequential always-succeeding requests are served in the
order `A B A A A B A A` — each block of four requests is served three
times by `A` and once by `B`, but not in the spacing the spec claims. -/
theorem c2_weighted_order_amended :
    weighted_round_robin [("A", 3), ("B", 1)] = some ["A", "B", "A", "A"] ∧
    (runRequestModel (fun _ => true) cfgWeighted "gpt-4" "k" 8 {}).2 =
      ["A", "B", "A", "A", "A", "B", "A", "A"] := by
  constructor
  · rfl
  · rfl

/-- C3 counterexample: a provider with no engine override whose base_url
host is `api.anthropic.com` but whose upstream model id
(`mistral-large`) contains none of `claude`/`gpt`/`gemini` gets engine
`openrouter`, not `claude`: the "none of the three" rule runs *after*
the host inference and overwrites it, so spec rule 5 does not precede
rule 7. -/
theorem c3_anthropic_host_counterexample :
    process_request_engine provAnthMistral "m" none = some "openrouter" ∧
    ¬ (process_request_engine provAnthMistral "m" none = some "claude") := by
  constructor
  · rfl
  · decide

/-- C3 amended: for a provider with no explicit engine override whose
base_url host is `api.anthropic.com` (or whose URL path ends with
`v1/messages`, the host not being one of the two Google hosts that match
earlier), `process_request` selects engine `claude` exactly when the
upstream model id contains at least one of `claude`/`gpt`/`gemini`; when
it contains none of them, the later "none of the three" assignment
overwrites the host inference and selects `openrouter`. -/
theorem c3_engine_selection_amended (p : Provider) (requestModel mid : String)
    (hov : p.engine = none)
    (hmid : alook p.model requestModel = some mid)
    (hhost : (parseNetlocPath p.base_url).1 = "api.anthropic.com" ∨
      endsWithStr (parseNetlocPath p.base_url).2 "v1/messages" = true)
    (hg1 : (parseNetlocPath p.base_url).1 ≠ "generativelanguage.googleapis.com")
    (hg2 : (parseNetlocPath p.base_url).1 ≠ "aiplatform.googleapis.com") :
    process_request_engine p requestModel none =
      some (if !(containsStr mid "claude") && !(containsStr mid "gpt")
          && !(containsStr mid "gemini") then "openrouter" else "claude") := by
  have h1 : ((parseNetlocPath p.base_url).1 == "generativelanguage.googleapis.com") = false :=
    beq_eq_false_iff_ne.mpr hg1
  have h2 : ((parseNetlocPath p.base_url).1 == "aiplatform.googleapis.com") = false :=
    beq_eq_false_iff_ne.mpr hg2
  have hb : ((parseNetlocPath p.base_url).1 == "api.anthropic.com"
      || endsWithStr (parseNetlocPath p.base_url).2 "v1/messages") = true := by
    rcases hhost with h | h
    · simp [h]
    · simp [h]
  unfold process_request_engine
  rw [hmid]
  simp only [h1, h2, hb, hov, Bool.false_eq_true, if_false, if_true]
  cases hc : (!containsStr mid "claude" && !containsStr mid "gpt"
      && !containsStr mid "gemini") <;>
    simp [hc]

/-- Witness for C3's amended theorem: an anthropic-hosted provider whose
upstream model id is `claude-3-opus` gets engine `claude`. -/
theorem c3_engine_selection_amended_witness :
    process_request_engine provAnthClaude "m" none = some "claude" := by
  have h := c3_engine_selection_amended provAnthClaude "m" "claude-3-opus"
    rfl rfl (Or.inl rfl) (by decide) (by decide)
  simpa using h

/-! Helper lemmas about the counter dicts and the dispatch loop. -/

theorem totalCount_bump (m : List (String × Nat)) (k : String) :
    totalCount (bump m k) = totalCount m + 1 := by
  induction m with
  | nil => simp [bump, totalCount]
  | cons p rest ih =>
    by_cases h : p.1 == k
    · simp [bump, h, totalCount]
      omega
    · simp [bump, h, totalCount] at ih ⊢
      omega

theorem totalCount_foldl_bump (l : List String) :
    ∀ m : List (String × Nat), totalCount (l.foldl bump m) = totalCount m + l.length := by
  induction l with
  | nil => intro m; simp
  | cons x t ih =>
    intro m
    simp only [List.foldl_cons, ih, totalCount_bump, List.length_cons]
    omega

theorem emod_toNat_lt (a : Int) (n : Nat) (hn : 0 < n) :
    (a % (n : Int)).toNat < n := by
  have h1 : 0 ≤ a % (n : Int) := Int.emod_nonneg a (by exact_mod_cast hn.ne')
  have h2 : a % (n : Int) < (n : Int) := Int.emod_lt_of_pos a (by exact_mod_cast hn)
  omega

/-- With an always-failing upstream and auto-retry on, the loop body of
`try_all_providers` visits the index `(start + i) mod n` for every
remaining loop index `i`, incrementing one failure counter per attempt,
and falls through to the final 500. -/
theorem tryAllAux_all_fail (ps : List Provider) (start : Int) (modelName : String)
    (hne : ps ≠ []) (ilist : List Nat) (st : DState) :
    (tryAllAux (fun _ => false) ps start true modelName ilist st).2.2 =
      Outcome.httpErr 500 ("All providers failed: " ++ modelName) ∧
    (tryAllAux (fun _ => false) ps start true modelName ilist st).2.1 =
      ilist.map (fun (i : Nat) =>
        nameAt ps ((start + (i : Int)) % (ps.length : Int)).toNat) ∧
    (tryAllAux (fun _ => false) ps start true modelName ilist st).1.failureCounts =
      (ilist.map (fun (i : Nat) =>
        nameAt ps ((start + (i : Int)) % (ps.length : Int)).toNat)).foldl
        bump st.failureCounts ∧
    (tryAllAux (fun _ => false) ps start true modelName ilist st).1.successCounts =
      st.successCounts := by
  induction ilist generalizing st with
  | nil => exact ⟨rfl, rfl, rfl, rfl⟩
  | cons i rest ih =>
    have hn : 0 < ps.length := List.length_pos.mpr hne
    have hlt : ((start + (i : Int)) % (ps.length : Int)).toNat < ps.length :=
      emod_toNat_lt _ _ hn
    have hget : ps.get? ((start + (i : Int)) % (ps.length : Int)).toNat =
        some (ps.get ⟨_, hlt⟩) := List.get?_eq_get hlt
    have hname : nameAt ps ((start + (i : Int)) % (ps.length : Int)).toNat =
        (ps.get ⟨_, hlt⟩).provider := by
      simp only [nameAt, hget, Option.map_some', Option.getD_some]
    simp only [tryAllAux, hget, Bool.false_eq_true, if_false, if_true,
      eq_self_iff_true, ite_true, ite_false]
    have ih2 := ih { st with
      lastProviderIndex := (start + (i : Int)) % (ps.length : Int),
      failureCounts := bump st.failureCounts (ps.get ⟨_, hlt⟩).provider }
    refine ⟨ih2.1, ?_, ?_, ih2.2.2.2⟩
    · simp only [List.map_cons, hname]
      rw [ih2.2.1]
    · simp only [List.map_cons, hname, List.foldl_cons]
      rw [ih2.2.2.1]

/-- C4: when every candidate attempt fails and AUTO_RETRY is true,
`try_all_providers` over `n ≥ 1` candidates makes exactly `n + 1`
attempts — one per loop index `i ∈ [0, n]`, at candidate position
`(start + i) mod n` — raises HTTP 500 `"All providers failed: <model>"`,
and each attempt increments exactly one channel failure counter (the
attempted provider's), leaving the success counters untouched. -/
theorem c4_all_fail_auto_retry (ps : List Provider) (st : DState)
    (modelName : String) (useRR : Bool) (hne : ps ≠ []) :
    (try_all_providers (fun _ => false) modelName ps useRR true st).2.2 =
      Outcome.httpErr 500 ("All providers failed: " ++ modelName) ∧
    (try_all_providers (fun _ => false) modelName ps useRR true st).2.1 =
      (List.range (ps.length + 1)).map (fun (i : Nat) =>
        nameAt ps (((if useRR then st.lastProviderIndex + 1 else 0) + (i : Int))
          % (ps.length : Int)).toNat) ∧
    (try_all_providers (fun _ => false) modelName ps useRR true st).2.1.length =
      ps.length + 1 ∧
    (try_all_providers (fun _ => false) modelName ps useRR true st).1.failureCounts =
      (try_all_providers (fun _ => false) modelName ps useRR true st).2.1.foldl
        bump st.failureCounts ∧
    totalCount (try_all_providers (fun _ => false) modelName ps useRR true st).1.failureCounts =
      totalCount st.failureCounts + (ps.length + 1) ∧
    (try_all_providers (fun _ => false) modelName ps useRR true st).1.successCounts =
      st.successCounts := by
  simp only [try_all_providers]
  have h := tryAllAux_all_fail ps (if useRR then st.lastProviderIndex + 1 else 0)
    modelName hne (List.range (ps.length + 1)) st
  refine ⟨h.1, h.2.1, ?_, ?_, ?_, h.2.2.2⟩
  · rw [h.2.1]; simp
  · rw [h.2.2.1, h.2.1]
  · rw [h.2.2.1, totalCount_foldl_bump]
    simp

/-- Witness for C4: two always-failing providers, starting from the
initial handler state, yield three attempts `A, B, A` and the 500. -/
theorem c4_all_fail_auto_retry_witness :
    ([provA, provB] : List Provider) ≠ [] ∧
    (try_all_providers (fun _ => false) "m" [provA, provB] true true {}).2.2 =
      Outcome.httpErr 500 ("All providers failed: " ++ "m") ∧
    totalCount (try_all_providers (fun _ => false) "m" [provA, provB] true true {}).1.failureCounts =
      totalCount ({} : DState).failureCounts + (2 + 1) :=
  ⟨by decide, (c4_all_fail_auto_retry [provA, provB] {} "m" true (by decide)).1,
    by
      have h := (c4_all_fail_auto_retry [provA, provB] {} "m" true (by decide)).2.2.2.2.1
      simpa using h⟩

/-! Helper lemmas for the round-robin cycle count (C5). -/

theorem nameAt_eq_getElem (ps : List Provider) (j : Nat) (hj : j < ps.length) :
    nameAt ps j = ps[j].provider := by
  simp [nameAt, List.get?_eq_getElem?, List.getElem?_eq_getElem hj]

theorem add_mod_inj (a t1 t2 n : Nat) (h1 : t1 < n) (h2 : t2 < n)
    (h : (a + t1) % n = (a + t2) % n) : t1 = t2 := by
  have h3 : t1 % n = t2 % n := Nat.ModEq.add_left_cancel' a h
  rwa [Nat.mod_eq_of_lt h1, Nat.mod_eq_of_lt h2] at h3

theorem add_mod_hits (a j n : Nat) (hj : j < n) :
    (a + (n - a % n + j) % n) % n = j := by
  have hn : 0 < n := lt_of_le_of_lt (Nat.zero_le j) hj
  have ham : a % n < n := Nat.mod_lt a hn
  rw [Nat.add_mod_mod, ← Nat.mod_add_mod, ← Nat.add_assoc,
    Nat.add_sub_cancel' (Nat.le_of_lt ham), Nat.add_mod_left, Nat.mod_eq_of_lt hj]

/-- In one block `[0, n)` of loop offsets, the residue `(a + t) % n` hits
each `j < n` exactly once. -/
theorem countP_range_block (n a j : Nat) (hj : j < n) :
    (List.range n).countP (fun t => (a + t) % n == j) = 1 := by
  have hres : (List.range n).countP (fun t => (a + t) % n == j) =
      ((List.range n).map (fun t => (a + t) % n)).count j := by
    rw [List.count_eq_countP, List.countP_map]
    rfl
  rw [hres]
  have hnd : ((List.range n).map (fun t => (a + t) % n)).Nodup := by
    refine List.Nodup.map_on ?_ (List.nodup_range n)
    intro x hx y hy hxy
    exact add_mod_inj a x y n (List.mem_range.mp hx) (List.mem_range.mp hy) hxy
  have hmem : j ∈ (List.range n).map (fun t => (a + t) % n) := by
    refine List.mem_map.mpr ⟨(n - a % n + j) % n, ?_, add_mod_hits a j n hj⟩
    exact List.mem_range.mpr (Nat.mod_lt _ (lt_of_le_of_lt (Nat.zero_le j) hj))
  exact List.count_eq_one_of_mem hnd hmem

/-- Over `k` blocks of `n` loop offsets, the residue `(a + t) % n` hits
each `j < n` exactly `k` times. -/
theorem countP_range_mul_mod (n a j : Nat) (hj : j < n) :
    ∀ k, (List.range (k * n)).countP (fun t => (a + t) % n == j) = k := by
  intro k
  induction k with
  | zero => simp
  | succ k ih =>
    have : (k + 1) * n = k * n + n := by ring
    rw [this, List.range_add, List.countP_append, ih, List.countP_map]
    have hcong : ((List.range n).countP ((fun t => (a + t) % n == j) ∘
        (fun x => k * n + x))) = (List.range n).countP (fun t => (a + t) % n == j) := by
      refine List.countP_congr ?_
      intro t _
      have harr : a + (k * n + t) = (a + t) + k * n := by ring
      simp only [Function.comp_apply, harr, Nat.add_mul_mod_self_right]
    rw [hcong, countP_range_block n a j hj]

theorem emod_step (a t n : Int) : (a % n + 1 + t) % n = (a + (t + 1)) % n := by
  rw [add_assoc, Int.emod_add_emod]
  congr 1
  ring

theorem int_emod_toNat_shift (L : Int) (n t : Nat) (hn : 0 < n) :
    ((L + (t : Int)) % (n : Int)).toNat = ((L % (n : Int)).toNat + t) % n := by
  have hnz : (n : Int) ≠ 0 := by exact_mod_cast hn.ne'
  have h0 : 0 ≤ L % (n : Int) := Int.emod_nonneg L hnz
  have e1 : L % (n : Int) = (((L % (n : Int)).toNat : Nat) : Int) :=
    (Int.toNat_of_nonneg h0).symm
  rw [← Int.emod_add_emod, e1]
  have e2 : ((((L % (n : Int)).toNat : Nat) : Int) + (t : Int)) =
      (((L % (n : Int)).toNat + t : Nat) : Int) := by push_cast; ring
  rw [e2, ← Int.natCast_mod, Int.toNat_natCast]
  rw [Int.toNat_natCast]

/-- With an always-succeeding upstream and round-robin on, a single
`try_all_providers` call serves the candidate one past the cursor and
advances the cursor to that position. -/
theorem tryAll_always_succeeds (ps : List Provider) (modelName : String)
    (autoRetry : Bool) (st : DState) (hne : ps ≠ []) :
    try_all_providers (fun _ => true) modelName ps true autoRetry st =
      ({ st with
          lastProviderIndex := (st.lastProviderIndex + 1) % (ps.length : Int),
          successCounts := bump st.successCounts
            (nameAt ps ((st.lastProviderIndex + 1) % (ps.length : Int)).toNat) },
        [nameAt ps ((st.lastProviderIndex + 1) % (ps.length : Int)).toNat],
        Outcome.served (nameAt ps ((st.lastProviderIndex + 1) % (ps.length : Int)).toNat)) := by
  have hn : 0 < ps.length := List.length_pos.mpr hne
  have hlt : ((st.lastProviderIndex + 1) % (ps.length : Int)).toNat < ps.length :=
    emod_toNat_lt _ _ hn
  have hget : ps.get? ((st.lastProviderIndex + 1 + ((0 : Nat) : Int)) % (ps.length : Int)).toNat =
      some (ps.get ⟨((st.lastProviderIndex + 1) % (ps.length : Int)).toNat, hlt⟩) := by
    simpa using List.get?_eq_get hlt
  have hname : nameAt ps ((st.lastProviderIndex + 1) % (ps.length : Int)).toNat =
      (ps.get ⟨((st.lastProviderIndex + 1) % (ps.length : Int)).toNat, hlt⟩).provider := by
    rw [nameAt_eq_getElem ps _ hlt]
    simp
  rw [try_all_providers]
  have hrange : List.range (ps.length + 1) = 0 :: (List.range ps.length).map Nat.succ :=
    List.range_succ_eq_map ps.length
  rw [if_pos rfl, hrange]
  simp only [tryAllAux, hget, if_true, hname]
  simp

/-- With an always-succeeding upstream, `m` sequential round-robin
dispatches serve the candidates at positions
`(last_provider_index + 1 + t) mod n` for `t = 0, …, m-1`. -/
theorem runTryAll_formula (ps : List Provider) (modelName : String)
    (autoRetry : Bool) (hne : ps ≠ []) : ∀ (m : Nat) (st : DState),
    (runTryAll (fun _ => true) modelName ps true autoRetry m st).2 =
      (List.range m).map (fun (t : Nat) =>
        nameAt ps ((st.lastProviderIndex + 1 + (t : Int)) % (ps.length : Int)).toNat) := by
  intro m
  induction m with
  | zero => intro st; rfl
  | succ m ih =>
    intro st
    rw [runTryAll, tryAll_always_succeeds ps modelName autoRetry st hne]
    simp only []
    rw [ih]
    rw [List.range_succ_eq_map, List.map_cons, List.map_map]
    refine congrArg₂ List.cons ?_ ?_
    · norm_num
    · refine List.map_congr_left ?_
      intro t _
      simp only [Function.comp_apply, Nat.succ_eq_add_one]
      push_cast
      rw [emod_step]

/-- C5: with round-robin enabled and a stub upstream that always
succeeds, `k·|C|` sequential `try_all_providers` calls over a fixed
candidate list `C` cycle in candidate-list order starting one past
`last_provider_index`, serving each candidate exactly `k` times. -/
theorem c5_round_robin_cycle (ps : List Provider) (modelName : String)
    (autoRetry : Bool) (k : Nat) (st : DState) (hne : ps ≠ [])
    (hnames : (ps.map (fun p => p.provider)).Nodup) :
    (runTryAll (fun _ => true) modelName ps true autoRetry (k * ps.length) st).2 =
      (List.range (k * ps.length)).map (fun (t : Nat) =>
        nameAt ps ((st.lastProviderIndex + 1 + (t : Int)) % (ps.length : Int)).toNat) ∧
    ∀ nm ∈ ps.map (fun p => p.provider),
      ((runTryAll (fun _ => true) modelName ps true autoRetry (k * ps.length) st).2).count nm
        = k := by
  have hn : 0 < ps.length := List.length_pos.mpr hne
  have hform := runTryAll_formula ps modelName autoRetry hne (k * ps.length) st
  refine ⟨hform, ?_⟩
  intro nm hnm
  obtain ⟨j0, hj0lt, hj0⟩ := List.mem_iff_getElem.mp hnm
  have hj0lt' : j0 < ps.length := by simpa using hj0lt
  have hj0' : ps[j0].provider = nm := by
    rw [← hj0]
    simp
  rw [hform, List.count_eq_countP, List.countP_map]
  set a := ((st.lastProviderIndex + 1) % (ps.length : Int)).toNat with ha
  have hpred : ∀ t ∈ List.range (k * ps.length),
      (((fun s => s == nm) ∘ (fun (t : Nat) =>
        nameAt ps ((st.lastProviderIndex + 1 + (t : Int)) % (ps.length : Int)).toNat)) t
          = true) ↔
      ((fun t => (a + t) % ps.length == j0) t = true) := by
    intro t _
    have hidx : ((st.lastProviderIndex + 1 + (t : Int)) % (ps.length : Int)).toNat =
        (a + t) % ps.length := int_emod_toNat_shift (st.lastProviderIndex + 1) ps.length t hn
    have hjlt : (a + t) % ps.length < ps.length := Nat.mod_lt _ hn
    simp only [Function.comp_apply, hidx, nameAt_eq_getElem ps _ hjlt]
    by_cases hj : (a + t) % ps.length = j0
    · simp [hj, hj0']
    · have hne2 : ps[(a + t) % ps.length].provider ≠ nm := by
        intro hc
        apply hj
        have hmapeq : (ps.map (fun p => p.provider)).get
            ⟨(a + t) % ps.length, by simpa using hjlt⟩ =
            (ps.map (fun p => p.provider)).get ⟨j0, by simpa using hj0lt'⟩ := by
          simp only [List.get_eq_getElem, List.getElem_map]
          rw [hc, hj0']
        rw [List.get_eq_getElem, List.get_eq_getElem] at hmapeq
        exact (@List.Nodup.getElem_inj_iff _ _ hnames _ (by simpa using hjlt) _
          (by simpa using hj0lt')).mp hmapeq
      simp [hne2, hj]
  rw [List.countP_congr hpred]
  exact countP_range_mul_mod ps.length a j0 hj0lt' k

/-- Witness for C5: three candidates `A, B, C` from the initial state,
six requests served `A, B, C, A, B, C`, each exactly twice. -/
theorem c5_round_robin_cycle_witness :
    (runTryAll (fun _ => true) "gpt-4" [provA, provB, provCc] true true (2 * 3) {}).2 =
      ["A", "B", "C", "A", "B", "C"] ∧
    (runTryAll (fun _ => true) "gpt-4" [provA, provB, provCc] true true (2 * 3) {}).2.count "A"
      = 2 := by
  have h := c5_round_robin_cycle [provA, provB, provCc] "gpt-4" true 2 {}
    (by decide) (by decide)
  constructor
  · rw [show (2 * 3 = 2 * ([provA, provB, provCc] : List Provider).length) from rfl, h.1]
    rfl
  · exact h.2 "A" (by decide)

/-! Helper lemmas about the dict operations of `weighted_round_robin`
(C6). -/

theorem aget_cons_ne (p : String × Int) (rest : List (String × Int)) (k : String)
    (h : (p.1 == k) = false) : aget (p :: rest) k = aget rest k := by
  simp [aget, List.find?_cons, h]

theorem aget_cons_self (p : String × Int) (rest : List (String × Int))
    (h : (p.1 == k) = true) : aget (p :: rest) k = p.2 := by
  simp [aget, List.find?_cons, h]

theorem keysOf_aset (l : List (String × Int)) (k : String) (v : Int) :
    keysOf (aset l k v) = keysOf l := by
  induction l with
  | nil => rfl
  | cons p rest ih =>
    by_cases h : (p.1 == k) = true
    · have hpk : p.1 = k := by simpa using h
      simp [aset, h, keysOf, hpk]
    · simp only [keysOf] at ih
      simp only [aset, if_neg h, keysOf, List.map_cons]
      rw [ih]

theorem aget_aset_self (l : List (String × Int)) (k : String) (v : Int)
    (hk : k ∈ keysOf l) : aget (aset l k v) k = v := by
  induction l with
  | nil => simp [keysOf] at hk
  | cons p rest ih =>
    by_cases h : (p.1 == k) = true
    · simp only [aset, if_pos h]
      exact aget_cons_self (k, v) rest (by simp)
    · have hbf : (p.1 == k) = false := by simpa using h
      have hpk : p.1 ≠ k := by simpa using hbf
      have hk2 : k ∈ keysOf rest := by
        have hk3 : k ∈ p.1 :: keysOf rest := hk
        rcases List.mem_cons.mp hk3 with h1 | h1
        · exact absurd h1.symm hpk
        · exact h1
      simp only [aset, if_neg h]
      rw [aget_cons_ne p _ k hbf]
      exact ih hk2

theorem aget_aset_other (l : List (String × Int)) (k k' : String) (v : Int)
    (h : k' ≠ k) : aget (aset l k v) k' = aget l k' := by
  induction l with
  | nil => rfl
  | cons p rest ih =>
    by_cases hp : (p.1 == k) = true
    · have hpk : p.1 = k := by simpa using hp
      have hkk : (k == k') = false := by
        simp only [beq_eq_false_iff_ne]
        exact fun hc => h hc.symm
      have hpq : (p.1 == k') = false := by
        rw [hpk]; exact hkk
      simp only [aset, if_pos hp]
      rw [aget_cons_ne (k, v) rest k' hkk, aget_cons_ne p rest k' hpq]
    · by_cases hq : (p.1 == k') = true
      · simp only [aset, if_neg hp]
        rw [aget_cons_self p _ hq, aget_cons_self p _ hq]
      · have hqf : (p.1 == k') = false := by simpa using hq
        simp only [aset, if_neg hp]
        rw [aget_cons_ne p _ k' hqf, aget_cons_ne p rest k' hqf]
        exact ih

theorem find?_eq_of_mem_nodup (l : List (String × Int)) (k : String) (v : Int)
    (hnd : (keysOf l).Nodup) (hm : (k, v) ∈ l) :
    l.find? (fun p => p.1 == k) = some (k, v) := by
  induction l with
  | nil => simp at hm
  | cons p rest ih =>
    have hnd2 : (p.1 :: keysOf rest).Nodup := hnd
    rcases List.mem_cons.mp hm with h1 | h1
    · rw [← h1]
      simp [List.find?]
    · have hk : k ∈ keysOf rest := List.mem_map.mpr ⟨(k, v), h1, rfl⟩
      have hout : p.1 ∉ keysOf rest := (List.nodup_cons.mp hnd2).1
      have hp : (p.1 == k) = false := by
        simp only [beq_eq_false_iff_ne]
        intro hc
        exact hout (by rw [hc]; exact hk)
      simp only [List.find?_cons, hp, Bool.false_eq_true]
      exact ih (List.nodup_cons.mp hnd2).2 h1

theorem aget_eq_of_mem_nodup (l : List (String × Int)) (k : String) (v : Int)
    (hnd : (keysOf l).Nodup) (hm : (k, v) ∈ l) : aget l k = v := by
  simp [aget, find?_eq_of_mem_nodup l k v hnd hm]

theorem mem_keysOf_exists (l : List (String × Int)) (k : String)
    (hk : k ∈ keysOf l) : ∃ v, (k, v) ∈ l := by
  obtain ⟨p, hp, he⟩ := List.mem_map.mp hk
  exact ⟨p.2, by rwa [show (k, p.2) = p from by rw [← he]]⟩

theorem forall_vals_of_keys (l : List (String × Int)) (P : Int → Prop)
    (hnd : (keysOf l).Nodup) (h : ∀ n ∈ keysOf l, P (aget l n)) :
    ∀ p ∈ l, P p.2 := by
  intro p hp
  have hk : p.1 ∈ keysOf l := List.mem_map.mpr ⟨p, hp, rfl⟩
  have h2 := h p.1 hk
  rwa [aget_eq_of_mem_nodup l p.1 p.2 hnd hp] at h2

theorem keys_vals_of_forall (l : List (String × Int)) (P : Int → Prop)
    (hnd : (keysOf l).Nodup) (h : ∀ p ∈ l, P p.2) :
    ∀ n ∈ keysOf l, P (aget l n) := by
  intro n hn
  obtain ⟨v, hv⟩ := mem_keysOf_exists l n hn
  rw [aget_eq_of_mem_nodup l n v hnd hv]
  exact h (n, v) hv

theorem sum_vals_eq_sum_keys (l : List (String × Int))
    (hnd : (keysOf l).Nodup) :
    (l.map Prod.snd).sum = ((keysOf l).map (fun n => aget l n)).sum := by
  induction l with
  | nil => rfl
  | cons p rest ih =>
    have hnd2 : (p.1 :: keysOf rest).Nodup := hnd
    have hndr : (keysOf rest).Nodup := (List.nodup_cons.mp hnd2).2
    have hout : p.1 ∉ keysOf rest := (List.nodup_cons.mp hnd2).1
    have hhead : aget (p :: rest) p.1 = p.2 := aget_cons_self p rest (by simp)
    have htail : (List.map (fun n => aget (p :: rest) n) (keysOf rest)).sum =
        (List.map (fun n => aget rest n) (keysOf rest)).sum := by
      refine congrArg List.sum (List.map_congr_left ?_)
      intro n hn
      have hne : (p.1 == n) = false := by
        simp only [beq_eq_false_iff_ne]
        intro hc
        exact hout (by rw [hc]; exact hn)
      exact aget_cons_ne p rest n hne
    have ihm := ih hndr
    simp only [keysOf, List.map_cons, List.sum_cons] at ihm ⊢
    simp only [keysOf] at hhead htail
    rw [hhead, htail, ihm]

theorem sum_map_add (ns : List String) (f g : String → Int) :
    (ns.map (fun n => f n + g n)).sum = (ns.map f).sum + (ns.map g).sum := by
  induction ns with
  | nil => rfl
  | cons h t ih =>
    simp only [List.map_cons, List.sum_cons, ih]
    ring

theorem sum_map_shift (ns : List String) (f : String → Int) (m : String) (d : Int)
    (hnd : ns.Nodup) (hm : m ∈ ns) :
    (ns.map (fun n => if n = m then f n + d else f n)).sum = (ns.map f).sum + d := by
  induction ns with
  | nil => simp at hm
  | cons h t ih =>
    rcases List.mem_cons.mp hm with h1 | h1
    · have hout : m ∉ t := by
        rw [h1]; exact (List.nodup_cons.mp hnd).1
      have hmt : t.map (fun n => if n = m then f n + d else f n) = t.map f := by
        refine List.map_congr_left ?_
        intro n hn
        have hne : n ≠ m := fun hc => hout (by rw [← hc]; exact hn)
        simp [hne]
      simp only [List.map_cons, List.sum_cons, ← h1, if_pos rfl, hmt]
      simp
      ring
    · have hne : h ≠ m := fun hc =>
        (List.nodup_cons.mp hnd).1 (by rw [hc]; exact h1)
      simp only [List.map_cons, List.sum_cons, hne, if_false]
      rw [ih (List.nodup_cons.mp hnd).2 h1]
      ring

theorem exists_nonneg_of_sum_nonneg (l : List Int) (hne : l ≠ [])
    (h : 0 ≤ l.sum) : ∃ x ∈ l, 0 ≤ x := by
  induction l with
  | nil => simp at hne
  | cons a t ih =>
    by_cases ha : 0 ≤ a
    · exact ⟨a, List.mem_cons_self a t, ha⟩
    · have ht : t ≠ [] := by
        intro hc
        rw [hc] at h
        simp at h
        omega
      have hts : 0 ≤ t.sum := by
        simp only [List.sum_cons] at h
        omega
      obtain ⟨x, hx1, hx2⟩ := ih ht hts
      exact ⟨x, List.mem_cons_of_mem a hx1, hx2⟩

theorem one_le_divInt_iff (c w : Int) (hw : 0 < w) :
    (1 : ℚ) ≤ Rat.divInt (c + w) w ↔ 0 ≤ c := by
  have hw2 : (0 : ℚ) < (w : ℚ) := by exact_mod_cast hw
  rw [Rat.divInt_eq_div, le_div_iff₀ hw2]
  constructor
  · intro h
    have hcast : ((c + w : Int) : ℚ) = (c : ℚ) + (w : ℚ) := by push_cast; ring
    rw [hcast] at h
    have h2 : (0 : ℚ) ≤ (c : ℚ) := by linarith
    exact_mod_cast h2
  · intro h
    have h2 : (0 : ℚ) ≤ (c : ℚ) := by exact_mod_cast h
    have hcast : ((c + w : Int) : ℚ) = (c : ℚ) + (w : ℚ) := by push_cast; ring
    rw [hcast]
    linarith

theorem aget_zeros (ns : List String) (n : String) :
    aget (ns.map (fun x => (x, (0 : Int)))) n = 0 := by
  induction ns with
  | nil => rfl
  | cons h t ih =>
    by_cases hh : (h == n) = true
    · simp only [List.map_cons]
      exact aget_cons_self (h, 0) _ hh
    · have hf : (h == n) = false := by simpa using hh
      simp only [List.map_cons]
      rw [aget_cons_ne (h, 0) _ n hf]
      exact ih

theorem sum_indicator_one (ns : List String) (x : String)
    (hnd : ns.Nodup) (hx : x ∈ ns) :
    (ns.map (fun n => if n = x then (1 : Int) else 0)).sum = 1 := by
  induction ns with
  | nil => simp at hx
  | cons h t ih =>
    rcases List.mem_cons.mp hx with h1 | h1
    · have hout : x ∉ t := by
        rw [h1]; exact (List.nodup_cons.mp hnd).1
      have hz : (t.map (fun n => if n = x then (1 : Int) else 0)).sum = 0 := by
        have hmz : t.map (fun n => if n = x then (1 : Int) else 0) =
            t.map (fun _ => (0 : Int)) := by
          refine List.map_congr_left ?_
          intro n hn
          have hne : n ≠ x := fun hc => hout (by rw [← hc]; exact hn)
          simp [hne]
        rw [hmz]
        simp
      simp only [List.map_cons, List.sum_cons, ← h1, if_pos rfl, hz]
      simp
    · have hne : h ≠ x := fun hc =>
        (List.nodup_cons.mp hnd).1 (by rw [hc]; exact h1)
      simp only [List.map_cons, List.sum_cons, hne, if_false]
      rw [ih (List.nodup_cons.mp hnd).2 h1]
      ring

theorem sum_counts_eq_length (ns : List String) (hnd : ns.Nodup) :
    ∀ l : List String, (∀ x ∈ l, x ∈ ns) →
    (ns.map (fun n => (l.count n : Int))).sum = (l.length : Int) := by
  intro l
  induction l with
  | nil => intro _; simp
  | cons x t ih =>
    intro hall
    have hxt : ∀ y ∈ t, y ∈ ns := fun y hy => hall y (List.mem_cons_of_mem x hy)
    have hx : x ∈ ns := hall x (List.mem_cons_self x t)
    have hmap : ns.map (fun n => ((x :: t).count n : Int)) =
        ns.map (fun n => (t.count n : Int) + (if n = x then (1 : Int) else 0)) := by
      refine List.map_congr_left ?_
      intro n _
      rw [List.count_cons]
      by_cases hnx : n = x
      · subst hnx
        simp
      · have hbe : (x == n) = false := by
          simp only [beq_eq_false_iff_ne]
          exact fun hc => hnx hc.symm
        simp [hbe, hnx]
    rw [hmap, sum_map_add, ih hxt, sum_indicator_one ns x hnd hx]
    simp only [List.length_cons]
    push_cast
    ring

/-- Behaviour of the inner scan of `weighted_round_robin`: every pending
name's current weight is increased by its weight, the scan result ratio
bounds every pending ratio, and the selection is either unchanged or the
(first) pending name attaining the greatest ratio. -/
theorem wrrScan_spec (W : List (String × Int)) :
    ∀ (pending : List String) (cur : List (String × Int)) (maxR : ℚ)
      (sel : Option String),
    pending.Nodup → (∀ n ∈ pending, n ∈ keysOf cur) →
    keysOf (wrrScan W pending cur maxR sel).1 = keysOf cur ∧
    (∀ n ∈ pending,
      aget (wrrScan W pending cur maxR sel).1 n = aget cur n + aget W n) ∧
    (∀ n, n ∉ pending → aget (wrrScan W pending cur maxR sel).1 n = aget cur n) ∧
    (∀ n ∈ pending,
      Rat.divInt (aget cur n + aget W n) (aget W n) ≤
        (wrrScan W pending cur maxR sel).2.1) ∧
    maxR ≤ (wrrScan W pending cur maxR sel).2.1 ∧
    (((wrrScan W pending cur maxR sel).2.2 = sel ∧
        (wrrScan W pending cur maxR sel).2.1 = maxR) ∨
      ∃ m ∈ pending, (wrrScan W pending cur maxR sel).2.2 = some m ∧
        (wrrScan W pending cur maxR sel).2.1 =
          Rat.divInt (aget cur m + aget W m) (aget W m)) := by
  intro pending
  induction pending with
  | nil =>
    intro cur maxR sel _ _
    exact ⟨rfl, by simp, fun n _ => rfl, by simp, le_refl _, Or.inl ⟨rfl, rfl⟩⟩
  | cons n rest ih =>
    intro cur maxR sel hnd hsub
    have hnmem : n ∈ keysOf cur := hsub n (List.mem_cons_self n rest)
    have hndr : rest.Nodup := (List.nodup_cons.mp hnd).2
    have hnout : n ∉ rest := (List.nodup_cons.mp hnd).1
    have hc2self : aget (aset cur n (aget cur n + aget W n)) n =
        aget cur n + aget W n := aget_aset_self cur n _ hnmem
    have hc2other : ∀ x, x ≠ n →
        aget (aset cur n (aget cur n + aget W n)) x = aget cur x :=
      fun x hx => aget_aset_other cur n x _ hx
    have hc2keys : keysOf (aset cur n (aget cur n + aget W n)) = keysOf cur :=
      keysOf_aset cur n _
    have hsubr : ∀ x ∈ rest, x ∈ keysOf (aset cur n (aget cur n + aget W n)) := by
      intro x hx
      rw [hc2keys]
      exact hsub x (List.mem_cons_of_mem n hx)
    simp only [wrrScan, hc2self]
    by_cases hcmp : maxR < Rat.divInt (aget cur n + aget W n) (aget W n)
    · rw [if_pos hcmp]
      obtain ⟨k1, k2, k3, k4, k5, k6⟩ :=
        ih (aset cur n (aget cur n + aget W n))
          (Rat.divInt (aget cur n + aget W n) (aget W n)) (some n) hndr hsubr
      refine ⟨k1.trans hc2keys, ?_, ?_, ?_, le_of_lt (lt_of_lt_of_le hcmp k5), ?_⟩
      · intro x hx
        rcases List.mem_cons.mp hx with h1 | h1
        · rw [h1, k3 n hnout, hc2self]
        · rw [k2 x h1, hc2other x (fun hc => hnout (hc ▸ h1))]
      · intro x hx
        have hxn : x ≠ n := fun hc => hx (by rw [hc]; exact List.mem_cons_self n rest)
        have hxr : x ∉ rest := fun hc => hx (List.mem_cons_of_mem n hc)
        rw [k3 x hxr, hc2other x hxn]
      · intro x hx
        rcases List.mem_cons.mp hx with h1 | h1
        · rw [h1]
          exact k5
        · have := k4 x h1
          rwa [hc2other x (fun hc => hnout (hc ▸ h1))] at this
      · rcases k6 with ⟨hsel, hmax⟩ | ⟨m, hm, hsel, hval⟩
        · exact Or.inr ⟨n, List.mem_cons_self n rest, hsel, hmax⟩
        · refine Or.inr ⟨m, List.mem_cons_of_mem n hm, hsel, ?_⟩
          rwa [hc2other m (fun hc => hnout (hc ▸ hm))] at hval
    · rw [if_neg hcmp]
      obtain ⟨k1, k2, k3, k4, k5, k6⟩ :=
        ih (aset cur n (aget cur n + aget W n)) maxR sel hndr hsubr
      refine ⟨k1.trans hc2keys, ?_, ?_, ?_, k5, ?_⟩
      · intro x hx
        rcases List.mem_cons.mp hx with h1 | h1
        · rw [h1, k3 n hnout, hc2self]
        · rw [k2 x h1, hc2other x (fun hc => hnout (hc ▸ h1))]
      · intro x hx
        have hxn : x ≠ n := fun hc => hx (by rw [hc]; exact List.mem_cons_self n rest)
        have hxr : x ∉ rest := fun hc => hx (List.mem_cons_of_mem n hc)
        rw [k3 x hxr, hc2other x hxn]
      · intro x hx
        rcases List.mem_cons.mp hx with h1 | h1
        · rw [h1]
          exact le_trans (le_of_not_lt hcmp) k5
        · have := k4 x h1
          rwa [hc2other x (fun hc => hnout (hc ▸ h1))] at this
      · rcases k6 with ⟨hsel, hmax⟩ | ⟨m, hm, hsel, hval⟩
        · exact Or.inl ⟨hsel, hmax⟩
        · refine Or.inr ⟨m, List.mem_cons_of_mem n hm, hsel, ?_⟩
          rwa [hc2other m (fun hc => hnout (hc ▸ hm))] at hval

/-- Invariant-carrying specification of the outer loop of
`weighted_round_robin`: from a current-weight dict over the weight names
with zero sum and every entry above `-total`, each round selects a name,
and after `k` rounds the remaining current weight of each name, which
equals `cur[n] + k·w[n] - count[n]·total`, is still above `-total`. -/
theorem wrrLoop_spec (W : List (String × Int))
    (hnd : (W.map Prod.fst).Nodup) (hpos : ∀ p ∈ W, 0 < p.2)
    (hne : W ≠ []) :
    ∀ (k : Nat) (cur : List (String × Int)),
    keysOf cur = W.map Prod.fst →
    (cur.map Prod.snd).sum = 0 →
    (∀ p ∈ cur, -(W.map Prod.snd).sum < p.2) →
    ∃ l, wrrLoop W (W.map Prod.fst) (W.map Prod.snd).sum k cur = some l ∧
      l.length = k ∧ (∀ x ∈ l, x ∈ W.map Prod.fst) ∧
      ∀ n ∈ W.map Prod.fst,
        -(W.map Prod.snd).sum <
          aget cur n + (k : Int) * aget W n -
            (l.count n : Int) * (W.map Prod.snd).sum := by
  intro k
  induction k with
  | zero =>
    intro cur hkeys hsum hlb
    refine ⟨[], rfl, rfl, by simp, ?_⟩
    intro n hn
    have hv := keys_vals_of_forall cur (fun v => -(W.map Prod.snd).sum < v)
      (by rw [hkeys]; exact hnd) hlb n (by rw [hkeys]; exact hn)
    simpa using hv
  | succ k ih =>
    intro cur hkeys hsum hlb
    have hnames_ne : W.map Prod.fst ≠ [] := by
      intro hc
      exact hne (List.map_eq_nil.mp hc)
    have htot : 0 < (W.map Prod.snd).sum := by
      apply List.sum_pos
      · intro x hx
        obtain ⟨p, hp, he⟩ := List.mem_map.mp hx
        rw [← he]
        exact hpos p hp
      · intro hc
        exact hne (List.map_eq_nil.mp hc)
    have hcur_ne : cur ≠ [] := by
      intro hc
      apply hnames_ne
      rw [← hkeys, hc]
      rfl
    have hndc : (keysOf cur).Nodup := by rw [hkeys]; exact hnd
    have hex : ∃ x ∈ cur.map Prod.snd, 0 ≤ x := by
      apply exists_nonneg_of_sum_nonneg
      · simp [hcur_ne]
      · rw [hsum]
    obtain ⟨v0, hv0mem, hv0⟩ := hex
    obtain ⟨p0, hp0, hp0e⟩ := List.mem_map.mp hv0mem
    have hn0 : p0.1 ∈ W.map Prod.fst := by
      rw [← hkeys]
      exact List.mem_map.mpr ⟨p0, hp0, rfl⟩
    have hget0 : aget cur p0.1 = p0.2 := aget_eq_of_mem_nodup cur p0.1 p0.2 hndc hp0
    have hwpos : ∀ n ∈ W.map Prod.fst, 0 < aget W n := by
      intro n hn
      obtain ⟨p, hp, he⟩ := List.mem_map.mp hn
      rw [← he, aget_eq_of_mem_nodup W p.1 p.2 hnd hp]
      exact hpos p hp
    obtain ⟨k1, k2, k3, k4, k5, k6⟩ := wrrScan_spec W (W.map Prod.fst) cur (-1) none
      hnd (fun n hn => by rw [hkeys]; exact hn)
    have hr0 : (1 : ℚ) ≤ Rat.divInt (aget cur p0.1 + aget W p0.1) (aget W p0.1) := by
      rw [one_le_divInt_iff _ _ (hwpos p0.1 hn0), hget0, hp0e]
      exact hv0
    have hr0le : (1 : ℚ) ≤ (wrrScan W (W.map Prod.fst) cur (-1) none).2.1 :=
      le_trans hr0 (k4 p0.1 hn0)
    rcases k6 with ⟨_, hmax⟩ | ⟨m, hm, hsel, hval⟩
    · rw [hmax] at hr0le
      norm_num at hr0le
    have hrm : (1 : ℚ) ≤ Rat.divInt (aget cur m + aget W m) (aget W m) := by
      rw [← hval]
      exact hr0le
    have hcm : 0 ≤ aget cur m := (one_le_divInt_iff _ _ (hwpos m hm)).mp hrm
    have hmkeys1 : m ∈ keysOf (wrrScan W (W.map Prod.fst) cur (-1) none).1 := by
      rw [k1, hkeys]
      exact hm
    have hc1m : aget (wrrScan W (W.map Prod.fst) cur (-1) none).1 m =
        aget cur m + aget W m := k2 m hm
    have hcurm : aget (aset (wrrScan W (W.map Prod.fst) cur (-1) none).1 m
        (aget (wrrScan W (W.map Prod.fst) cur (-1) none).1 m - (W.map Prod.snd).sum)) m =
        aget cur m + aget W m - (W.map Prod.snd).sum := by
      rw [aget_aset_self _ m _ hmkeys1, hc1m]
    have hcurx : ∀ x ∈ W.map Prod.fst, x ≠ m →
        aget (aset (wrrScan W (W.map Prod.fst) cur (-1) none).1 m
          (aget (wrrScan W (W.map Prod.fst) cur (-1) none).1 m - (W.map Prod.snd).sum)) x =
        aget cur x + aget W x := by
      intro x hx hxm
      rw [aget_aset_other _ m x _ hxm]
      exact k2 x hx
    have hkeys2 : keysOf (aset (wrrScan W (W.map Prod.fst) cur (-1) none).1 m
        (aget (wrrScan W (W.map Prod.fst) cur (-1) none).1 m - (W.map Prod.snd).sum)) =
        W.map Prod.fst := by
      rw [keysOf_aset, k1, hkeys]
    have hnd2 : (keysOf (aset (wrrScan W (W.map Prod.fst) cur (-1) none).1 m
        (aget (wrrScan W (W.map Prod.fst) cur (-1) none).1 m - (W.map Prod.snd).sum))).Nodup := by
      rw [hkeys2]
      exact hnd
    have hvals2 : ∀ n ∈ W.map Prod.fst,
        aget (aset (wrrScan W (W.map Prod.fst) cur (-1) none).1 m
          (aget (wrrScan W (W.map Prod.fst) cur (-1) none).1 m - (W.map Prod.snd).sum)) n =
        if n = m then (aget cur n + aget W n) + -(W.map Prod.snd).sum
        else aget cur n + aget W n := by
      intro n hn
      by_cases hnm : n = m
      · rw [if_pos hnm, hnm, hcurm]
        ring
      · rw [if_neg hnm, hcurx n hn hnm]
    have hsum2 : ((aset (wrrScan W (W.map Prod.fst) cur (-1) none).1 m
        (aget (wrrScan W (W.map Prod.fst) cur (-1) none).1 m -
          (W.map Prod.snd).sum)).map Prod.snd).sum = 0 := by
      rw [sum_vals_eq_sum_keys _ hnd2, hkeys2]
      have hcongr : (W.map Prod.fst).map (fun n =>
          aget (aset (wrrScan W (W.map Prod.fst) cur (-1) none).1 m
            (aget (wrrScan W (W.map Prod.fst) cur (-1) none).1 m - (W.map Prod.snd).sum)) n) =
          (W.map Prod.fst).map (fun n =>
            if n = m then (aget cur n + aget W n) + -(W.map Prod.snd).sum
            else aget cur n + aget W n) := List.map_congr_left hvals2
      rw [hcongr, sum_map_shift (W.map Prod.fst) (fun n => aget cur n + aget W n) m
        (-(W.map Prod.snd).sum) hnd hm, sum_map_add]
      have e1 : ((W.map Prod.fst).map (fun n => aget cur n)).sum = 0 := by
        have := sum_vals_eq_sum_keys cur hndc
        rw [hkeys] at this
        rw [← this, hsum]
      have e2 : ((W.map Prod.fst).map (fun n => aget W n)).sum = (W.map Prod.snd).sum := by
        have h2 := sum_vals_eq_sum_keys W hnd
        simp only [keysOf] at h2
        exact h2.symm
      rw [e1, e2]
      ring
    have hlb2 : ∀ p ∈ (aset (wrrScan W (W.map Prod.fst) cur (-1) none).1 m
        (aget (wrrScan W (W.map Prod.fst) cur (-1) none).1 m - (W.map Prod.snd).sum)),
        -(W.map Prod.snd).sum < p.2 := by
      refine forall_vals_of_keys _ (fun v => -(W.map Prod.snd).sum < v) hnd2 ?_
      rw [hkeys2]
      intro n hn
      by_cases hnm : n = m
      · rw [hnm, hcurm]
        have := hwpos m hm
        linarith
      · rw [hcurx n hn hnm]
        have hlbn := keys_vals_of_forall cur (fun v => -(W.map Prod.snd).sum < v)
          hndc hlb n (by rw [hkeys]; exact hn)
        have := hwpos n hn
        linarith
    obtain ⟨l2, hloop2, hlen2, hmem2, hineq2⟩ := ih _ hkeys2 hsum2 hlb2
    refine ⟨m :: l2, ?_, by simp [hlen2], ?_, ?_⟩
    · simp only [wrrLoop, hsel, hloop2, Option.map_some']
    · intro x hx
      rcases List.mem_cons.mp hx with h1 | h1
      · rw [h1]; exact hm
      · exact hmem2 x h1
    · intro n hn
      have hineqn := hineq2 n hn
      rw [List.count_cons]
      by_cases hnm : n = m
      · rw [hnm] at hineqn ⊢
        rw [hcurm] at hineqn
        simp only [beq_self_eq_true, if_true]
        push_cast
        push_cast at hineqn
        linarith
      · have hbe : (m == n) = false := by
          simp only [beq_eq_false_iff_ne]
          exact fun hc => hnm hc.symm
        rw [hcurx n hn hnm] at hineqn
        simp only [hbe, Bool.false_eq_true, if_false]
        push_cast
        push_cast at hineqn
        linarith

theorem eq_of_sum_eq_of_le (ns : List String) (f g : String → Int) :
    (∀ n ∈ ns, f n ≤ g n) → (ns.map f).sum = (ns.map g).sum →
    ∀ n ∈ ns, f n = g n := by
  induction ns with
  | nil =>
    intro _ _ n hn
    simp at hn
  | cons h t ih =>
    intro hle hsum n hn
    have hs1 : (t.map f).sum ≤ (t.map g).sum :=
      List.sum_le_sum (fun i hi => hle i (List.mem_cons_of_mem h hi))
    have hh : f h ≤ g h := hle h (List.mem_cons_self h t)
    simp only [List.map_cons, List.sum_cons] at hsum
    have hte : (t.map f).sum = (t.map g).sum := by omega
    rcases List.mem_cons.mp hn with h1 | h1
    · rw [h1]
      omega
    · exact ih (fun i hi => hle i (List.mem_cons_of_mem h hi)) hte n h1

/-- C6: for every mapping from names to positive integer weights (a dict,
so names are distinct), `weighted_round_robin` returns a list whose
length is the sum of all the weights and in which each name occurs
exactly its weight many times. -/
theorem c6_weighted_round_robin_multiset (W : List (String × Int))
    (hnd : (W.map Prod.fst).Nodup) (hpos : ∀ p ∈ W, 0 < p.2) :
    ∃ l, weighted_round_robin W = some l ∧
      l.length = ((W.map Prod.snd).sum).toNat ∧
      ∀ p ∈ W, l.count p.1 = p.2.toNat := by
  rcases eq_or_ne W [] with hW | hW
  · subst hW
    exact ⟨[], rfl, rfl, by simp⟩
  · have htot : 0 < (W.map Prod.snd).sum := by
      apply List.sum_pos
      · intro x hx
        obtain ⟨p, hp, he⟩ := List.mem_map.mp hx
        rw [← he]
        exact hpos p hp
      · intro hc
        exact hW (List.map_eq_nil.mp hc)
    have hkeys0 : keysOf ((W.map Prod.fst).map (fun n => (n, (0 : Int)))) =
        W.map Prod.fst := by
      simp [keysOf, List.map_map, Function.comp_def]
    have hsum0 : ((((W.map Prod.fst).map (fun n => (n, (0 : Int))))).map Prod.snd).sum
        = 0 := by
      simp [List.map_map, Function.comp_def]
    have hlb0 : ∀ p ∈ (W.map Prod.fst).map (fun n => (n, (0 : Int))),
        -(W.map Prod.snd).sum < p.2 := by
      intro p hp
      obtain ⟨n, hn, he⟩ := List.mem_map.mp hp
      rw [← he]
      simpa using htot
    obtain ⟨l, hloop, hlen, hmem, hineq⟩ := wrrLoop_spec W hnd hpos hW
      ((W.map Prod.snd).sum).toNat _ hkeys0 hsum0 hlb0
    refine ⟨l, ?_, hlen, ?_⟩
    · simp only [weighted_round_robin]
      exact hloop
    · have hcast : (((W.map Prod.snd).sum.toNat : Nat) : Int) = (W.map Prod.snd).sum :=
        Int.toNat_of_nonneg (le_of_lt htot)
      have hle : ∀ n ∈ W.map Prod.fst, (l.count n : Int) ≤ aget W n := by
        intro n hn
        have h1 := hineq n hn
        rw [aget_zeros, hcast] at h1
        have h2 : (W.map Prod.snd).sum * (-1) <
            (W.map Prod.snd).sum * (aget W n - (l.count n : Int)) := by
          ring_nf
          ring_nf at h1
          linarith
        have h3 : (-1 : Int) < aget W n - (l.count n : Int) :=
          lt_of_mul_lt_mul_left h2 (le_of_lt htot)
        omega
      have hsumc : ((W.map Prod.fst).map (fun n => (l.count n : Int))).sum =
          ((W.map Prod.fst).map (fun n => aget W n)).sum := by
        rw [sum_counts_eq_length (W.map Prod.fst) hnd l hmem]
        have h2 := sum_vals_eq_sum_keys W hnd
        simp only [keysOf] at h2
        rw [← h2, hlen, hcast]
      have hco := eq_of_sum_eq_of_le (W.map Prod.fst) (fun n => (l.count n : Int))
        (fun n => aget W n) hle hsumc
      intro p hp
      have hn : p.1 ∈ W.map Prod.fst := List.mem_map.mpr ⟨p, hp, rfl⟩
      have h1 := hco p.1 hn
      simp only at h1
      rw [aget_eq_of_mem_nodup W p.1 p.2 hnd hp] at h1
      omega

/-- Witness for C6: weights `{A: 3, B: 1}` produce a 4-element list with
`A` occurring 3 times and `B` once. -/
theorem c6_weighted_round_robin_multiset_witness :
    ∃ l, weighted_round_robin [("A", 3), ("B", 1)] = some l ∧
      l.length = 4 ∧ l.count "A" = 3 ∧ l.count "B" = 1 := by
  obtain ⟨l, h1, h2, h3⟩ := c6_weighted_round_robin_multiset
    [("A", 3), ("B", 1)] (by decide) (by decide)
  refine ⟨l, h1, h2, h3 ("A", 3) (by decide), h3 ("B", 1) (by decide)⟩

/-! Helper lemmas for the rate limiter (C7). -/

theorem length_filter_le_filter (l : List ℚ) (p q : ℚ → Bool)
    (h : ∀ x ∈ l, p x = true → q x = true) :
    (l.filter p).length ≤ (l.filter q).length := by
  induction l with
  | nil => simp
  | cons a t ih =>
    have ht : ∀ x ∈ t, p x = true → q x = true :=
      fun x hx => h x (List.mem_cons_of_mem a hx)
    by_cases hp : p a = true
    · have hq : q a = true := h a (List.mem_cons_self a t) hp
      simp only [List.filter_cons, hp, hq, if_true, List.length_cons]
      exact Nat.succ_le_succ (ih ht)
    · have hp2 : p a = false := by simpa using hp
      simp only [List.filter_cons, hp2, Bool.false_eq_true, if_false]
      by_cases hq : q a = true
      · simp only [hq, if_true, List.length_cons]
        exact Nat.le_succ_of_le (ih ht)
      · have hq2 : q a = false := by simpa using hq
        simp only [hq2, Bool.false_eq_true, if_false]
        exact ih ht

theorem filter_last_split (l : List ℚ) (p : ℚ → Bool) (h : l.filter p ≠ []) :
    ∃ l1 x l2, l = l1 ++ x :: l2 ∧ p x = true ∧ l2.filter p = [] := by
  induction l with
  | nil => simp at h
  | cons a t ih =>
    by_cases ht : t.filter p = []
    · have hp : p a = true := by
        by_contra hp
        have hp2 : p a = false := by simpa using hp
        apply h
        simp [List.filter_cons, hp2, ht]
      exact ⟨[], a, t, rfl, hp, ht⟩
    · obtain ⟨l1, x, l2, he, hx, hl2⟩ := ih ht
      exact ⟨a :: l1, x, l2, by rw [he, List.cons_append], hx, hl2⟩

/-- During a run of the rate limiter with nondecreasing call times, every
admitted call `x` saw strictly fewer than `N` prior admissions younger
than `x - T` — where the prior admissions are `P` (before this run)
followed by the run's earlier admissions. -/
theorem runLimiter_spec (N : Nat) (T : ℚ) (hT : 0 < T) :
    ∀ (calls : List ℚ) (P st : List ℚ) (c : ℚ),
    calls.Pairwise (· ≤ ·) →
    st = P.filter (fun s => decide (c < s)) →
    (∀ u ∈ calls, c ≤ u - T) →
    ∀ A1 x A2, (runLimiter N T calls st).2 = A1 ++ x :: A2 →
      ((P ++ A1).filter (fun s => decide (x - T < s))).length < N := by
  intro calls
  induction calls with
  | nil =>
    intro P st c _ _ _ A1 x A2 habs
    simp [runLimiter] at habs
  | cons t ts ih =>
    intro P st c hpw hst hc A1 x A2 hsplit
    have hct : c ≤ t - T := hc t (List.mem_cons_self t ts)
    have hcts : ∀ u ∈ ts, t - T ≤ u - T := by
      intro u hu
      have := (List.pairwise_cons.mp hpw).1 u hu
      linarith
    have hpwts : ts.Pairwise (· ≤ ·) := (List.pairwise_cons.mp hpw).2
    have hfilter : st.filter (fun s => decide (t - T < s)) =
        P.filter (fun s => decide (t - T < s)) := by
      rw [hst, List.filter_filter]
      refine List.filter_congr ?_
      intro s _
      by_cases hs : t - T < s
      · have hcs : c < s := lt_of_le_of_lt hct hs
        simp [hs, hcs]
      · simp [hs]
    rw [runLimiter] at hsplit
    simp only [is_rate_limited] at hsplit
    by_cases hlim : N ≤ (st.filter (fun s => decide (t - T < s))).length
    · rw [if_pos hlim] at hsplit
      simp only [if_true] at hsplit
      exact ih P (st.filter (fun s => decide (t - T < s))) (t - T) hpwts hfilter
        hcts A1 x A2 hsplit
    · rw [if_neg hlim] at hsplit
      simp only [Bool.false_eq_true, if_false] at hsplit
      rcases A1 with _ | ⟨t1, A1t⟩
      · simp only [List.nil_append] at hsplit
        have hxt : t = x := ((List.cons.injEq _ _ _ _).mp hsplit).1
        rw [List.append_nil, ← hxt, ← hfilter]
        omega
      · simp only [List.cons_append] at hsplit
        have ht1 : t = t1 := ((List.cons.injEq _ _ _ _).mp hsplit).1
        have hrest : (runLimiter N T ts
            (st.filter (fun s => decide (t - T < s)) ++ [t])).2 = A1t ++ x :: A2 :=
          ((List.cons.injEq _ _ _ _).mp hsplit).2
        have hst2 : st.filter (fun s => decide (t - T < s)) ++ [t] =
            (P ++ [t]).filter (fun s => decide (t - T < s)) := by
          rw [List.filter_append, hfilter]
          have h1t : ([t].filter (fun s => decide (t - T < s))) = [t] := by
            simp only [List.filter_cons, List.filter_nil]
            have hlt : t - T < t := by linarith
            simp [hlt]
          rw [h1t]
        have hb := ih (P ++ [t]) (st.filter (fun s => decide (t - T < s)) ++ [t])
          (t - T) hpwts hst2 hcts A1t x A2 hrest
        have hassoc : P ++ [t] ++ A1t = P ++ t1 :: A1t := by
          rw [← ht1]
          simp
        rwa [hassoc] at hb

/-- C7: `is_rate_limited(k, N, T)` at time `t` first drops all timestamps
not greater than `t - T`, then reports limited iff at least `N`
timestamps remain, and otherwise appends `t`; consequently, over any
sequence of calls with nondecreasing times, at most `N` admissions have
timestamps in any window `(a, a + T]`. -/
theorem c7_rate_limiter (reqs : List ℚ) (N : Nat) (T now : ℚ)
    (calls : List ℚ) (hT : 0 < T) (hsorted : calls.Pairwise (· ≤ ·)) :
    ((is_rate_limited reqs N T now).2 = true ↔
      N ≤ (reqs.filter (fun s => decide (now - T < s))).length) ∧
    ((is_rate_limited reqs N T now).2 = true →
      (is_rate_limited reqs N T now).1 =
        reqs.filter (fun s => decide (now - T < s))) ∧
    ((is_rate_limited reqs N T now).2 = false →
      (is_rate_limited reqs N T now).1 =
        reqs.filter (fun s => decide (now - T < s)) ++ [now]) ∧
    ∀ a : ℚ, (((runLimiter N T calls []).2).filter
      (fun s => decide (a < s ∧ s ≤ a + T))).length ≤ N := by
  refine ⟨?_, ?_, ?_, ?_⟩
  · simp only [is_rate_limited]
    by_cases hlim : N ≤ (reqs.filter (fun s => decide (now - T < s))).length
    · simp [hlim]
    · simp [hlim]
  · simp only [is_rate_limited]
    by_cases hlim : N ≤ (reqs.filter (fun s => decide (now - T < s))).length
    · simp [hlim]
    · simp [hlim]
  · simp only [is_rate_limited]
    by_cases hlim : N ≤ (reqs.filter (fun s => decide (now - T < s))).length
    · simp [hlim]
    · simp [hlim]
  · intro a
    by_cases hW : ((runLimiter N T calls []).2).filter
        (fun s => decide (a < s ∧ s ≤ a + T)) = []
    · rw [hW]
      simp
    · rcases calls with _ | ⟨u, us⟩
      · simp [runLimiter] at hW
      obtain ⟨A1, x, A2, hsplitA, hpx, hA2⟩ :=
        filter_last_split _ (fun s => decide (a < s ∧ s ≤ a + T)) hW
      have hcx : a < x ∧ x ≤ a + T := of_decide_eq_true hpx
      have hc0 : ∀ v ∈ u :: us, u - T ≤ v - T := by
        intro v hv
        rcases List.mem_cons.mp hv with h1 | h1
        · rw [h1]
        · have := (List.pairwise_cons.mp hsorted).1 v h1
          linarith
      have hbound := runLimiter_spec N T hT (u :: us) [] [] (u - T) hsorted
        (by simp) hc0 A1 x A2 hsplitA
      simp only [List.nil_append] at hbound
      have hlen : (((runLimiter N T (u :: us) []).2).filter
          (fun s => decide (a < s ∧ s ≤ a + T))).length =
          (A1.filter (fun s => decide (a < s ∧ s ≤ a + T))).length + 1 := by
        rw [hsplitA, List.filter_append, List.filter_cons, hpx, if_pos rfl, hA2]
        simp
      have hmono : (A1.filter (fun s => decide (a < s ∧ s ≤ a + T))).length ≤
          (A1.filter (fun s => decide (x - T < s))).length := by
        refine length_filter_le_filter A1 _ _ ?_
        intro s _ hs
        have hs2 : a < s ∧ s ≤ a + T := of_decide_eq_true hs
        have : x - T < s := by
          rcases hcx with ⟨_, hx2⟩
          rcases hs2 with ⟨hs1, _⟩
          linarith
        simpa using this
      omega

/-- Witness for C7: limit 2 per 60 seconds, calls at times 0, 10, 20 —
at most 2 admissions fall in the window `(-1, 59]`. -/
theorem c7_rate_limiter_witness :
    (0 : ℚ) < 60 ∧ ([(0 : ℚ), 10, 20].Pairwise (· ≤ ·)) ∧
    (((runLimiter 2 60 [0, 10, 20] []).2).filter
      (fun s => decide ((-1 : ℚ) < s ∧ s ≤ -1 + 60))).length ≤ 2 := by
  refine ⟨by norm_num, by decide, ?_⟩
  exact (c7_rate_limiter [] 2 60 0 [0, 10, 20] (by norm_num) (by decide)).2.2.2 (-1)

/-! Generic association-list lemmas for the stats dicts (C8-C10). -/

theorem find?_key_unique {α : Type} (l : List (String × α)) (k : String) (v : α)
    (hnd : (keysOf l).Nodup) (hm : (k, v) ∈ l) :
    l.find? (fun p => p.1 == k) = some (k, v) := by
  induction l with
  | nil => simp at hm
  | cons p rest ih =>
    have hnd2 : (p.1 :: keysOf rest).Nodup := hnd
    rcases List.mem_cons.mp hm with h1 | h1
    · rw [← h1]
      simp [List.find?]
    · have hk : k ∈ keysOf rest := List.mem_map.mpr ⟨(k, v), h1, rfl⟩
      have hout : p.1 ∉ keysOf rest := (List.nodup_cons.mp hnd2).1
      have hp : (p.1 == k) = false := by
        simp only [beq_eq_false_iff_ne]
        intro hc
        exact hout (by rw [hc]; exact hk)
      simp only [List.find?_cons, hp, Bool.false_eq_true]
      exact ih (List.nodup_cons.mp hnd2).2 h1

theorem alook_eq_of_mem_nodup {α : Type} (l : List (String × α)) (k : String) (v : α)
    (hnd : (keysOf l).Nodup) (hm : (k, v) ∈ l) : alook l k = some v := by
  simp [alook, find?_key_unique l k v hnd hm]

theorem val_unique {α : Type} (l : List (String × α)) (k : String) (v1 v2 : α)
    (hnd : (keysOf l).Nodup) (h1 : (k, v1) ∈ l) (h2 : (k, v2) ∈ l) : v1 = v2 := by
  have e1 := find?_key_unique l k v1 hnd h1
  have e2 := find?_key_unique l k v2 hnd h2
  rw [e1] at e2
  exact (Prod.mk.injEq _ _ _ _).mp (Option.some.injEq _ _ |>.mp e2) |>.2

theorem find?_key_none {α : Type} (l : List (String × α)) (k : String)
    (h : k ∉ keysOf l) : l.find? (fun p => p.1 == k) = none := by
  rw [List.find?_eq_none]
  intro p hp
  simp only [beq_iff_eq]
  intro hc
  exact h (List.mem_map.mpr ⟨p, hp, hc⟩)

theorem alook_none {α : Type} (l : List (String × α)) (k : String)
    (h : k ∉ keysOf l) : alook l k = none := by
  simp [alook, find?_key_none l k h]

theorem alook_append_left {α : Type} (l z : List (String × α)) (k : String)
    (h : k ∈ keysOf l) : alook (l ++ z) k = alook l k := by
  induction l with
  | nil => simp [keysOf] at h
  | cons p rest ih =>
    by_cases hp : (p.1 == k) = true
    · simp [alook, List.find?_cons, hp]
    · have hk : k ∈ keysOf rest := by
        have h2 : k ∈ p.1 :: keysOf rest := h
        rcases List.mem_cons.mp h2 with h3 | h3
        · exact absurd (by simpa using hp : p.1 ≠ k) (by rw [h3]; simp)
        · exact h3
      have hpf : (p.1 == k) = false := by simpa using hp
      simp only [List.cons_append, alook, List.find?_cons, hpf, Bool.false_eq_true]
      simpa [alook] using ih hk

theorem alook_append_right {α : Type} (l z : List (String × α)) (k : String)
    (h : k ∉ keysOf l) : alook (l ++ z) k = alook z k := by
  induction l with
  | nil => rfl
  | cons p rest ih =>
    have hpk : p.1 ≠ k := by
      intro hc
      exact h (by rw [← hc]; exact List.mem_cons_self _ _)
    have hkr : k ∉ keysOf rest := by
      intro hc
      exact h (List.mem_cons_of_mem _ hc)
    have hpf : (p.1 == k) = false := by
      simp only [beq_eq_false_iff_ne]
      exact hpk
    simp only [List.cons_append, alook, List.find?_cons, hpf, Bool.false_eq_true]
    simpa [alook] using ih hkr

theorem mem_keysOf_exists' {α : Type} (l : List (String × α)) (k : String)
    (hk : k ∈ keysOf l) : ∃ v, (k, v) ∈ l := by
  obtain ⟨p, hp, he⟩ := List.mem_map.mp hk
  exact ⟨p.2, by rwa [show (k, p.2) = p from by rw [← he]]⟩

theorem alook_zero_entries (z : List (String × Nat)) (k : String)
    (hz : ∀ p ∈ z, p.2 = 0) (hk : k ∈ keysOf z) : alook z k = some 0 := by
  induction z with
  | nil => simp [keysOf] at hk
  | cons p rest ih =>
    by_cases hp : (p.1 == k) = true
    · have : p.2 = 0 := hz p (List.mem_cons_self _ _)
      simp [alook, List.find?_cons, hp, this]
    · have hpf : (p.1 == k) = false := by simpa using hp
      have hk2 : k ∈ keysOf rest := by
        have h2 : k ∈ p.1 :: keysOf rest := hk
        rcases List.mem_cons.mp h2 with h3 | h3
        · exact absurd h3.symm (by simpa using hpf)
        · exact h3
      simp only [alook, List.find?_cons, hpf, Bool.false_eq_true]
      simpa [alook] using ih (fun q hq => hz q (List.mem_cons_of_mem _ hq)) hk2

/-! `dget` lemmas: the defaultdict read returns the `dlook` value and
extends the dict with a zero entry exactly when the key is missing. -/

theorem dget_fst (other : List (String × Nat)) (k : String) :
    (dget other k).1 = dlook other k := by
  induction other with
  | nil => rfl
  | cons p rest ih =>
    by_cases hp : (p.1 == k) = true
    · simp [dget, hp, dlook, alook, List.find?_cons]
    · have hpf : (p.1 == k) = false := by simpa using hp
      simp only [dget, hpf, Bool.false_eq_true, if_false, dlook, alook,
        List.find?_cons]
      simpa [dlook, alook] using ih

theorem dget_snd_mem (other : List (String × Nat)) (k : String)
    (h : k ∈ keysOf other) : (dget other k).2 = other := by
  induction other with
  | nil => simp [keysOf] at h
  | cons p rest ih =>
    by_cases hp : (p.1 == k) = true
    · simp [dget, hp]
    · have hpf : (p.1 == k) = false := by simpa using hp
      have hk2 : k ∈ keysOf rest := by
        have h2 : k ∈ p.1 :: keysOf rest := h
        rcases List.mem_cons.mp h2 with h3 | h3
        · exact absurd h3.symm (by simpa using hpf)
        · exact h3
      simp only [dget, hpf, Bool.false_eq_true, if_false]
      rw [ih hk2]

theorem dget_snd_not_mem (other : List (String × Nat)) (k : String)
    (h : k ∉ keysOf other) : (dget other k).2 = other ++ [(k, 0)] := by
  induction other with
  | nil => rfl
  | cons p rest ih =>
    have hpk : p.1 ≠ k := by
      intro hc
      exact h (by rw [← hc]; exact List.mem_cons_self _ _)
    have hkr : k ∉ keysOf rest := by
      intro hc
      exact h (List.mem_cons_of_mem _ hc)
    have hpf : (p.1 == k) = false := by
      simp only [beq_eq_false_iff_ne]
      exact hpk
    simp only [dget, hpf, Bool.false_eq_true, if_false, List.cons_append]
    rw [ih hkr]

theorem dlook_append_zero (other : List (String × Nat)) (ch k : String)
    (h : k ≠ ch) : dlook (other ++ [(ch, 0)]) k = dlook other k := by
  by_cases hk : k ∈ keysOf other
  · simp [dlook, alook_append_left other [(ch, 0)] k hk]
  · rw [dlook, alook_append_right other [(ch, 0)] k hk]
    have hcf : (ch == k) = false := by
      simp only [beq_eq_false_iff_ne]
      exact fun hc => h hc.symm
    have h1 : alook [(ch, 0)] k = none := by
      simp [alook, List.find?_cons, hcf]
    rw [h1, dlook, alook_none other k hk]

/-! `calcPercAux` characterization (C8, C10). -/

/-- The percentage list built by one pass of
`calculate_success/failure_percentages` (before sorting): one entry per
channel of the iterated counts dict, with `count/total·100` computed
against the *original* other dict. -/
theorem calcPercAux_fst (counts : List (String × Nat))
    (hnd : (keysOf counts).Nodup) :
    ∀ other, (calcPercAux counts other).1 =
      counts.map (fun p => (p.1,
        if 0 < p.2 + dlook other p.1 then
          Rat.divInt (p.2 : Int) ((p.2 + dlook other p.1 : Nat) : Int) * 100
        else 0)) := by
  induction counts with
  | nil => intro other; rfl
  | cons p rest ih =>
    intro other
    have hnd2 : (p.1 :: keysOf rest).Nodup := hnd
    have hout : p.1 ∉ keysOf rest := (List.nodup_cons.mp hnd2).1
    have hndr : (keysOf rest).Nodup := (List.nodup_cons.mp hnd2).2
    obtain ⟨ch, c⟩ := p
    simp only [calcPercAux, dget_fst]
    rw [ih hndr]
    simp only [List.map_cons]
    refine congrArg₂ List.cons rfl ?_
    refine List.map_congr_left ?_
    intro q hq
    have hq1 : q.1 ≠ ch := by
      intro hc
      exact hout (by rw [← hc]; exact List.mem_map.mpr ⟨q, hq, rfl⟩)
    have hdl : dlook (dget other ch).2 q.1 = dlook other q.1 := by
      by_cases hch : ch ∈ keysOf other
      · rw [dget_snd_mem other ch hch]
      · rw [dget_snd_not_mem other ch hch, dlook_append_zero other ch q.1 hq1]
    rw [hdl]

/-- The other-dict after one pass of
`calculate_success/failure_percentages`: the original dict followed by a
zero entry for each iterated channel that was missing from it. -/
theorem calcPercAux_snd (counts : List (String × Nat))
    (hnd : (keysOf counts).Nodup) :
    ∀ other, (calcPercAux counts other).2 =
      other ++ (counts.filter
        (fun p => !(decide (p.1 ∈ keysOf other)))).map (fun p => (p.1, 0)) := by
  induction counts with
  | nil => intro other; simp [calcPercAux]
  | cons p rest ih =>
    intro other
    have hnd2 : (p.1 :: keysOf rest).Nodup := hnd
    have hout : p.1 ∉ keysOf rest := (List.nodup_cons.mp hnd2).1
    have hndr : (keysOf rest).Nodup := (List.nodup_cons.mp hnd2).2
    obtain ⟨ch, c⟩ := p
    simp only [calcPercAux]
    rw [ih hndr]
    by_cases hch : ch ∈ keysOf other
    · rw [dget_snd_mem other ch hch]
      have hcond : (!(decide ((ch, c).1 ∈ keysOf other))) = false := by
        simp [hch]
      rw [List.filter_cons]
      simp only [hcond, Bool.false_eq_true, if_false]
    · rw [dget_snd_not_mem other ch hch]
      have hcond : (!(decide ((ch, c).1 ∈ keysOf other))) = true := by
        simp [hch]
      rw [List.filter_cons]
      simp only [hcond, if_true, List.map_cons]
      have hkeys : keysOf (other ++ [(ch, 0)]) = keysOf other ++ [ch] := by
        simp [keysOf]
      have hfcong : rest.filter (fun q => !(decide (q.1 ∈ keysOf (other ++ [(ch, 0)])))) =
          rest.filter (fun q => !(decide (q.1 ∈ keysOf other))) := by
        refine List.filter_congr ?_
        intro q hq
        have hq1 : q.1 ≠ ch := by
          intro hc
          exact hout (by rw [← hc]; exact List.mem_map.mpr ⟨q, hq, rfl⟩)
        rw [hkeys]
        simp [List.mem_append, hq1]
      rw [hfcong]
      simp

/-- C10: computing the percentage maps is not read-only.  The pass over
`channel_success_counts` inserts, via defaultdict access, a zero-valued
entry into `channel_failure_counts` for every success channel missing
from it (and symmetrically for the failure pass on the success counts),
while preserving every existing entry's value and adding no other keys —
so serving GET /stats or running save_stats mutates the counter maps'
key sets but never an existing count value. -/
theorem c10_percentage_mutation (success failure : List (String × Nat))
    (hnds : (keysOf success).Nodup) (hndf : (keysOf failure).Nodup) :
    ((∀ ch ∈ keysOf failure,
        alook (calculate_success_percentages success failure).2 ch =
          alook failure ch) ∧
      (∀ ch ∈ keysOf success, ch ∉ keysOf failure →
        alook (calculate_success_percentages success failure).2 ch = some 0) ∧
      (∀ ch ∈ keysOf (calculate_success_percentages success failure).2,
        ch ∈ keysOf failure ∨ ch ∈ keysOf success)) ∧
    ((∀ ch ∈ keysOf success,
        alook (calculate_failure_percentages failure success).2 ch =
          alook success ch) ∧
      (∀ ch ∈ keysOf failure, ch ∉ keysOf success →
        alook (calculate_failure_percentages failure success).2 ch = some 0) ∧
      (∀ ch ∈ keysOf (calculate_failure_percentages failure success).2,
        ch ∈ keysOf success ∨ ch ∈ keysOf failure)) := by
  have hmain : ∀ (counts other : List (String × Nat)),
      (keysOf counts).Nodup →
      (∀ ch ∈ keysOf other, alook (calcPercAux counts other).2 ch = alook other ch) ∧
      (∀ ch ∈ keysOf counts, ch ∉ keysOf other →
        alook (calcPercAux counts other).2 ch = some 0) ∧
      (∀ ch ∈ keysOf (calcPercAux counts other).2,
        ch ∈ keysOf other ∨ ch ∈ keysOf counts) := by
    intro counts other hnd
    rw [calcPercAux_snd counts hnd other]
    refine ⟨?_, ?_, ?_⟩
    · intro ch hch
      exact alook_append_left _ _ ch hch
    · intro ch hch hnot
      rw [alook_append_right _ _ ch hnot]
      refine alook_zero_entries _ ch ?_ ?_
      · intro q hq
        obtain ⟨q0, _, he⟩ := List.mem_map.mp hq
        rw [← he]
      · obtain ⟨v, hv⟩ := mem_keysOf_exists' counts ch hch
        refine List.mem_map.mpr ⟨((ch, 0) : String × Nat), ?_, rfl⟩
        refine List.mem_map.mpr ⟨(ch, v), ?_, rfl⟩
        refine List.mem_filter.mpr ⟨hv, ?_⟩
        simp [hnot]
    · intro ch hch
      rw [keysOf, List.map_append] at hch
      rcases List.mem_append.mp hch with h1 | h1
      · exact Or.inl h1
      · right
        obtain ⟨q, hq, he⟩ := List.mem_map.mp h1
        obtain ⟨q0, hq0, he0⟩ := List.mem_map.mp hq
        have : q0.1 = ch := by rw [← he, ← he0]
        rw [← this]
        exact List.mem_map.mpr ⟨q0, (List.mem_filter.mp hq0).1, rfl⟩
  exact ⟨hmain success failure hnds, hmain failure success hndf⟩

/-- Witness for C10 at a concrete state: success `{A: 2}`, failure
`{B: 1}` — the success pass inserts `A: 0` into the failure counts and
keeps `B`'s value. -/
theorem c10_percentage_mutation_witness :
    alook (calculate_success_percentages [("A", 2)] [("B", 1)]).2 "A" = some 0 ∧
    alook (calculate_success_percentages [("A", 2)] [("B", 1)]).2 "B" =
      alook [(("B" : String), (1 : Nat))] "B" := by
  have h := c10_percentage_mutation [("A", 2)] [("B", 1)] (by decide) (by decide)
  exact ⟨h.1.2.1 "A" (by decide) (by decide), h.1.1 "B" (by decide)⟩

/-- C8 counterexample: a channel with one recorded failure and no
recorded success gets a `channel_failure_percentages` entry of 100 but
*no* entry in `channel_success_percentages` (which iterates only the
success counts, computed first in the snapshot), so the claimed
"success% + failure% = 100 for any channel with at least one outcome"
fails for it. -/
theorem c8_failure_only_channel_counterexample :
    (get_stats_snapshot [] [("A", 1)]).1.channel_failure_percentages = [("A", 100)] ∧
    ¬ ∃ sp fp,
      ("A", sp) ∈ (get_stats_snapshot [] [("A", 1)]).1.channel_success_percentages ∧
      ("A", fp) ∈ (get_stats_snapshot [] [("A", 1)]).1.channel_failure_percentages ∧
      sp + fp = 100 := by
  constructor
  · with_unfolding_all rfl
  · rintro ⟨sp, fp, hsp, -, -⟩
    have he : (get_stats_snapshot [] [("A", 1)]).1.channel_success_percentages =
        ([] : List (String × ℚ)) := rfl
    rw [he] at hsp
    simp at hsp

theorem pct_sum_100 (s f : Nat) (h : 0 < s + f) :
    Rat.divInt (s : Int) ((s + f : Nat) : Int) * 100 +
      Rat.divInt (f : Int) ((f + s : Nat) : Int) * 100 = 100 := by
  rw [Rat.divInt_eq_div, Rat.divInt_eq_div]
  push_cast
  have h1 : (s : ℚ) + (f : ℚ) ≠ 0 := by
    have h0 : (0 : ℚ) < (s : ℚ) + (f : ℚ) := by exact_mod_cast h
    linarith
  have h2 : (f : ℚ) + (s : ℚ) ≠ 0 := by
    intro hc
    exact h1 (by linarith)
  field_simp
  ring

/-- C8 amended: in every stats snapshot, every channel present in
`channel_success_counts` has entries in both percentage maps, summing to
100 when the channel has at least one recorded outcome and both 0 when it
has none; a channel with failures only gets a failure-percentage entry
(100 when it has an outcome) but *no* entry in
`channel_success_percentages`; both maps are sorted in non-increasing
percentage order. -/
theorem c8_percentages_amended (success failure : List (String × Nat))
    (hnds : (keysOf success).Nodup) (hndf : (keysOf failure).Nodup) :
    (∀ p ∈ success, ∃ sp fp,
      (p.1, sp) ∈ (get_stats_snapshot success failure).1.channel_success_percentages ∧
      (p.1, fp) ∈ (get_stats_snapshot success failure).1.channel_failure_percentages ∧
      (0 < p.2 + dlook failure p.1 → sp + fp = 100) ∧
      (p.2 + dlook failure p.1 = 0 → sp = 0 ∧ fp = 0)) ∧
    (∀ p ∈ failure, p.1 ∉ keysOf success →
      (∀ q, (p.1, q) ∈
        (get_stats_snapshot success failure).1.channel_success_percentages → False) ∧
      ∃ fp, (p.1, fp) ∈
          (get_stats_snapshot success failure).1.channel_failure_percentages ∧
        (0 < p.2 → fp = 100)) ∧
    List.Sorted pctGE (get_stats_snapshot success failure).1.channel_success_percentages ∧
    List.Sorted pctGE (get_stats_snapshot success failure).1.channel_failure_percentages := by
  have hsps : (get_stats_snapshot success failure).1.channel_success_percentages =
      List.insertionSort pctGE (calcPercAux success failure).1 := rfl
  have hfps : (get_stats_snapshot success failure).1.channel_failure_percentages =
      List.insertionSort pctGE
        (calcPercAux (calcPercAux success failure).2 success).1 := rfl
  have hfail1 := calcPercAux_snd success hnds failure
  have hps := calcPercAux_fst success hnds failure
  have hzsub : List.Sublist (List.map Prod.fst (success.filter
      (fun p => !(decide (p.1 ∈ keysOf failure))))) (List.map Prod.fst success) :=
    List.Sublist.map Prod.fst (List.filter_sublist success)
  have hznd : (List.map Prod.fst (success.filter
      (fun p => !(decide (p.1 ∈ keysOf failure))))).Nodup := hnds.sublist hzsub
  have hdisj : List.Disjoint (List.map Prod.fst failure)
      (List.map Prod.fst ((success.filter
        (fun p => !(decide (p.1 ∈ keysOf failure)))).map (fun p => (p.1, 0)))) := by
    intro a ha hb
    obtain ⟨q, hq, he⟩ := List.mem_map.mp hb
    obtain ⟨q0, hq0, he0⟩ := List.mem_map.mp hq
    have hcond := (List.mem_filter.mp hq0).2
    have hq0not : q0.1 ∉ keysOf failure := by simpa using hcond
    apply hq0not
    rw [show q0.1 = a from by rw [← he, ← he0]]
    exact ha
  have hndf1 : (keysOf (calcPercAux success failure).2).Nodup := by
    rw [hfail1]
    simp only [keysOf, List.map_append]
    refine List.nodup_append.mpr ⟨hndf, ?_, hdisj⟩
    rw [List.map_map]
    exact hznd
  have hfs := calcPercAux_fst (calcPercAux success failure).2 hndf1 success
  refine ⟨?_, ?_, ?_, ?_⟩
  · intro p hp
    have hdls : dlook success p.1 = p.2 := by
      rw [dlook, alook_eq_of_mem_nodup success p.1 p.2 hnds hp]
      rfl
    have hentry : ∃ f0, f0 = dlook failure p.1 ∧ (p.1, f0) ∈ (calcPercAux success failure).2 := by
      by_cases hpf : p.1 ∈ keysOf failure
      · obtain ⟨v, hv⟩ := mem_keysOf_exists' failure p.1 hpf
        refine ⟨v, ?_, ?_⟩
        · rw [dlook, alook_eq_of_mem_nodup failure p.1 v hndf hv]
          rfl
        · rw [hfail1]
          exact List.mem_append_left _ hv
      · refine ⟨0, ?_, ?_⟩
        · rw [dlook, alook_none failure p.1 hpf]
          rfl
        · rw [hfail1]
          refine List.mem_append_right _ ?_
          refine List.mem_map.mpr ⟨p, ?_, rfl⟩
          refine List.mem_filter.mpr ⟨hp, ?_⟩
          simp [hpf]
    obtain ⟨f0, hf0, hf0mem⟩ := hentry
    refine ⟨if 0 < p.2 + dlook failure p.1 then
        Rat.divInt (p.2 : Int) ((p.2 + dlook failure p.1 : Nat) : Int) * 100 else 0,
      if 0 < f0 + p.2 then
        Rat.divInt (f0 : Int) ((f0 + p.2 : Nat) : Int) * 100 else 0, ?_, ?_, ?_, ?_⟩
    · rw [hsps, (List.perm_insertionSort pctGE _).mem_iff, hps]
      exact List.mem_map.mpr ⟨p, hp, rfl⟩
    · rw [hfps, (List.perm_insertionSort pctGE _).mem_iff, hfs]
      refine List.mem_map.mpr ⟨(p.1, f0), hf0mem, ?_⟩
      simp only [hdls]
    · intro hpos
      have hpos2 : 0 < f0 + p.2 := by rw [hf0]; omega
      rw [if_pos hpos, if_pos hpos2, ← hf0]
      exact pct_sum_100 p.2 f0 (by rw [hf0]; omega)
    · intro hzero
      have hz2 : ¬ (0 < p.2 + dlook failure p.1) := by omega
      have hz3 : ¬ (0 < f0 + p.2) := by rw [hf0]; omega
      rw [if_neg hz2, if_neg hz3]
      exact ⟨rfl, rfl⟩
  · intro p hp hnot
    constructor
    · intro q hq
      rw [hsps, (List.perm_insertionSort pctGE _).mem_iff, hps] at hq
      obtain ⟨p0, hp0, he0⟩ := List.mem_map.mp hq
      apply hnot
      have : p0.1 = p.1 := by simpa using congrArg Prod.fst he0
      rw [← this]
      exact List.mem_map.mpr ⟨p0, hp0, rfl⟩
    · have hdls : dlook success p.1 = 0 := by
        rw [dlook, alook_none success p.1 hnot]
        rfl
      have hmem1 : p ∈ (calcPercAux success failure).2 := by
        rw [hfail1]
        exact List.mem_append_left _ hp
      refine ⟨if 0 < p.2 + dlook success p.1 then
          Rat.divInt (p.2 : Int) ((p.2 + dlook success p.1 : Nat) : Int) * 100 else 0,
        ?_, ?_⟩
      · rw [hfps, (List.perm_insertionSort pctGE _).mem_iff, hfs]
        exact List.mem_map.mpr ⟨p, hmem1, rfl⟩
      · intro hposf
        have hc : 0 < p.2 + dlook success p.1 := by omega
        rw [if_pos hc, hdls]
        have hfne : ((p.2 + 0 : Nat) : Int) = (p.2 : Int) := by push_cast; ring
        rw [hfne, Rat.divInt_self' (by exact_mod_cast Nat.pos_iff_ne_zero.mp hposf)]
        norm_num
  · rw [hsps]
    exact List.sorted_insertionSort pctGE _
  · rw [hfps]
    exact List.sorted_insertionSort pctGE _

/-- Witness for C8's amended theorem: a channel with one success and one
failure has both percentage entries and they sum to 100. -/
theorem c8_percentages_amended_witness :
    ∃ sp fp,
      (("A" : String), sp) ∈
        (get_stats_snapshot [("A", 1)] [("A", 1)]).1.channel_success_percentages ∧
      ("A", fp) ∈
        (get_stats_snapshot [("A", 1)] [("A", 1)]).1.channel_failure_percentages ∧
      sp + fp = 100 := by
  obtain ⟨sp, fp, h1, h2, h3, -⟩ :=
    (c8_percentages_amended [("A", 1)] [("A", 1)] (by decide) (by decide)).1
      ("A", 1) (by decide)
  exact ⟨sp, fp, h1, h2, h3 (by decide)⟩

theorem mem_of_alook_some {α : Type} (l : List (String × α)) (k : String) (v : α)
    (h : alook l k = some v) : (k, v) ∈ l := by
  simp only [alook, Option.map_eq_some'] at h
  obtain ⟨p, hp, he⟩ := h
  have hk : p.1 = k := by simpa using List.find?_some hp
  have hmem := List.mem_of_find?_eq_some hp
  have hpe : p = (k, v) := by
    cases p with
    | mk a b =>
      simp only [Prod.mk.injEq]
      exact ⟨hk, he⟩
  rwa [hpe] at hmem

theorem cleanup_arrivals_eq (c : ℚ) (s : Stats) :
    (cleanup_old_data c s).request_arrivals =
      (s.request_arrivals.map
        (fun p => (p.1, p.2.filter (fun t => decide (c < t))))).filter
        (fun p => !p.2.isEmpty) := rfl

theorem cleanup_counts_eq (c : ℚ) (s : Stats) :
    (cleanup_old_data c s).request_counts =
      s.request_counts.filter (fun p => !((removedKeys c s).contains p.1)) := rfl

theorem cleanup_times_eq (c : ℚ) (s : Stats) :
    (cleanup_old_data c s).request_times =
      s.request_times.filter (fun p => !((removedKeys c s).contains p.1)) := rfl

theorem cleanup_ip_eq (c : ℚ) (s : Stats) :
    (cleanup_old_data c s).ip_counts =
      s.ip_counts.filter (fun p => !((removedKeys c s).contains p.1)) := rfl

theorem alook_filter_not_mem {α : Type} (m : List (String × α)) (R : List String)
    (e : String) (he : e ∈ R) :
    alook (m.filter (fun p => !(R.contains p.1))) e = none := by
  apply alook_none
  intro hmem
  obtain ⟨v, hv⟩ := mem_keysOf_exists' _ e hmem
  have h2 := (List.mem_filter.mp hv).2
  have h3 : e ∉ R := by simpa using h2
  exact h3 he

/-- C9: for any cutoff `c`, after `cleanup_old_data` (i) `request_arrivals`
contains no timestamp `≤ c`; (ii) every endpoint whose arrival list becomes
empty after filtering is absent from all four endpoint-keyed maps; (iii)
assuming distinct arrival keys, the invariant `arrivalsCover` — every
endpoint key present in any of the four maps has a non-empty
`request_arrivals` entry — is preserved. -/
theorem c9_cleanup_invariant (c : ℚ) (s : Stats)
    (hnd : (keysOf s.request_arrivals).Nodup)
    (hinv : arrivalsCover s) :
    (∀ p ∈ (cleanup_old_data c s).request_arrivals, ∀ t ∈ p.2, c < t) ∧
    (∀ e l, (e, l) ∈ s.request_arrivals →
      l.filter (fun t => decide (c < t)) = [] →
      alook (cleanup_old_data c s).request_arrivals e = none ∧
      alook (cleanup_old_data c s).request_counts e = none ∧
      alook (cleanup_old_data c s).request_times e = none ∧
      alook (cleanup_old_data c s).ip_counts e = none) ∧
    arrivalsCover (cleanup_old_data c s) := by
  refine ⟨?_, ?_, ?_⟩
  · intro p hp t ht
    rw [cleanup_arrivals_eq] at hp
    have h1 := List.mem_filter.mp hp
    obtain ⟨q, hq, he⟩ := List.mem_map.mp h1.1
    have hp2 : p.2 = q.2.filter (fun t => decide (c < t)) := by
      rw [← he]
    rw [hp2] at ht
    have h2 := (List.mem_filter.mp ht).2
    simpa using h2
  · intro e l hel hfe
    have hPe : (e, ([] : List ℚ)) ∈ s.request_arrivals.map
        (fun p => (p.1, p.2.filter (fun t => decide (c < t)))) := by
      refine List.mem_map.mpr ⟨(e, l), hel, ?_⟩
      simp [hfe]
    have heR : e ∈ removedKeys c s := by
      simp only [removedKeys]
      exact List.mem_map.mpr ⟨(e, []), List.mem_filter.mpr ⟨hPe, rfl⟩, rfl⟩
    refine ⟨?_, ?_, ?_, ?_⟩
    · apply alook_none
      intro hk
      rw [cleanup_arrivals_eq] at hk
      obtain ⟨m, hm⟩ := mem_keysOf_exists' _ e hk
      have h1 := List.mem_filter.mp hm
      obtain ⟨q, hq, he2⟩ := List.mem_map.mp h1.1
      have hq1 : q.1 = e := by simpa using congrArg Prod.fst he2
      have hq2 : q.2.filter (fun t => decide (c < t)) = m := by
        simpa using congrArg Prod.snd he2
      have hqmem : (e, q.2) ∈ s.request_arrivals := by
        rw [← hq1]; exact hq
      have hqval : q.2 = l := val_unique s.request_arrivals e q.2 l hnd hqmem hel
      rw [hqval, hfe] at hq2
      rw [← hq2] at h1
      simp at h1
    · rw [cleanup_counts_eq]
      exact alook_filter_not_mem _ _ e heR
    · rw [cleanup_times_eq]
      exact alook_filter_not_mem _ _ e heR
    · rw [cleanup_ip_eq]
      exact alook_filter_not_mem _ _ e heR
  · have hkeysP : keysOf (s.request_arrivals.map
        (fun p => (p.1, p.2.filter (fun t => decide (c < t))))) =
        keysOf s.request_arrivals := by
      simp [keysOf, List.map_map, Function.comp]
    have hndA : (keysOf ((cleanup_old_data c s).request_arrivals)).Nodup := by
      rw [cleanup_arrivals_eq]
      have hsub : List.Sublist
          (keysOf ((s.request_arrivals.map
            (fun p => (p.1, p.2.filter (fun t => decide (c < t))))).filter
              (fun p => !p.2.isEmpty)))
          (keysOf (s.request_arrivals.map
            (fun p => (p.1, p.2.filter (fun t => decide (c < t)))))) :=
        List.Sublist.map Prod.fst (List.filter_sublist _)
      rw [hkeysP] at hsub
      exact hnd.sublist hsub
    have hmain : ∀ e0 : String, e0 ∉ removedKeys c s →
        ((alook s.request_arrivals e0).getD []).isEmpty = false →
        ((alook (cleanup_old_data c s).request_arrivals e0).getD []).isEmpty = false := by
      intro e0 heNR hcov
      cases halook : alook s.request_arrivals e0 with
      | none =>
        rw [halook] at hcov
        simp at hcov
      | some l0 =>
        rw [halook, Option.getD_some] at hcov
        have hmem0 : (e0, l0) ∈ s.request_arrivals := mem_of_alook_some _ _ _ halook
        have hmemP : (e0, l0.filter (fun t => decide (c < t))) ∈
            s.request_arrivals.map
              (fun p => (p.1, p.2.filter (fun t => decide (c < t)))) :=
          List.mem_map.mpr ⟨(e0, l0), hmem0, rfl⟩
        have hne : (l0.filter (fun t => decide (c < t))).isEmpty = false := by
          cases hc : (l0.filter (fun t => decide (c < t))).isEmpty with
          | false => rfl
          | true =>
            exfalso
            apply heNR
            simp only [removedKeys]
            exact List.mem_map.mpr ⟨(e0, l0.filter (fun t => decide (c < t))),
              List.mem_filter.mpr ⟨hmemP, hc⟩, rfl⟩
        have hmemA : (e0, l0.filter (fun t => decide (c < t))) ∈
            (cleanup_old_data c s).request_arrivals := by
          rw [cleanup_arrivals_eq]
          exact List.mem_filter.mpr ⟨hmemP, by simp [hne]⟩
        rw [alook_eq_of_mem_nodup _ e0 _ hndA hmemA, Option.getD_some]
        exact hne
    have hRmem : ∀ {α : Type} (m : List (String × α)) (e : String),
        e ∈ keysOf (m.filter (fun p => !((removedKeys c s).contains p.1))) →
        e ∈ keysOf m ∧ e ∉ removedKeys c s := by
      intro α m e hm
      obtain ⟨v, hv⟩ := mem_keysOf_exists' _ e hm
      have h1 := List.mem_filter.mp hv
      refine ⟨List.mem_map.mpr ⟨(e, v), h1.1, rfl⟩, ?_⟩
      have h2 := h1.2
      simpa using h2
    intro e he
    rcases List.mem_append.mp he with h123 | h4
    · rcases List.mem_append.mp h123 with h12 | h3
      · rcases List.mem_append.mp h12 with h1 | h2
        · rw [cleanup_counts_eq] at h1
          obtain ⟨hpre, hNR⟩ := hRmem _ e h1
          exact hmain e hNR (hinv e (List.mem_append.mpr (Or.inl
            (List.mem_append.mpr (Or.inl (List.mem_append.mpr (Or.inl hpre)))))))
        · rw [cleanup_times_eq] at h2
          obtain ⟨hpre, hNR⟩ := hRmem _ e h2
          exact hmain e hNR (hinv e (List.mem_append.mpr (Or.inl
            (List.mem_append.mpr (Or.inl (List.mem_append.mpr (Or.inr hpre)))))))
      · rw [cleanup_ip_eq] at h3
        obtain ⟨hpre, hNR⟩ := hRmem _ e h3
        exact hmain e hNR (hinv e (List.mem_append.mpr (Or.inl
          (List.mem_append.mpr (Or.inr hpre)))))
    · rw [cleanup_arrivals_eq] at h4
      obtain ⟨m, hm⟩ := mem_keysOf_exists' _ e h4
      have h1 := List.mem_filter.mp hm
      have hne : m.isEmpty = false := by
        have h2 := h1.2
        simpa using h2
      rw [alook_eq_of_mem_nodup _ e m hndA (by rw [cleanup_arrivals_eq]; exact hm),
        Option.getD_some]
      exact hne

/-- Witness for C9 at a concrete state with cutoff `10`: endpoint `b`
(arrivals `[5]`, all stale) is removed from `request_counts`, and the
cover invariant holds after cleanup. -/
theorem c9_cleanup_invariant_witness :
    alook (cleanup_old_data 10
        { request_counts := [("a", 2), ("b", 1)], request_times := [("a", 3)],
          ip_counts := [("b", [("ip", 1)])],
          request_arrivals := [("a", [5, 20]), ("b", [5])] }).request_counts "b" = none ∧
    arrivalsCover (cleanup_old_data 10
        { request_counts := [("a", 2), ("b", 1)], request_times := [("a", 3)],
          ip_counts := [("b", [("ip", 1)])],
          request_arrivals := [("a", [5, 20]), ("b", [5])] }) := by
  have h := c9_cleanup_invariant 10
      { request_counts := [("a", 2), ("b", 1)], request_times := [("a", 3)],
        ip_counts := [("b", [("ip", 1)])],
        request_arrivals := [("a", [5, 20]), ("b", [5])] }
      (by decide) (by simp only [arrivalsCover]; decide)
  exact ⟨(h.2.1 "b" [5] (by decide) (by decide)).2.1, h.2.2⟩

end UniApi
